import Mathlib

/-!
# Verification of the GF(256) / Reed-Solomon / Huffman codec toolkit

Shallow embedding of the Rust sources of the `encoding-and-encrypiton`
repository (crates `reed_solomon`, `qr_code_generator`, `archiver`), with
proofs and refutations of the specification claims.

Conventions of the embedding:
* Rust `u8` values are `Nat`s; where a result depends on the byte range the
  theorems carry `< 256` hypotheses.  Wrapping/truncating `u8` arithmetic is
  written out explicitly (`% 256`, `/ 128`, `^^^`).
* Polynomials (`Vec<u8>`, little endian) are `List Nat`.
* A Rust `panic!` (including out-of-bounds indexing and division by zero) is
  modelled by `Option`/an explicit `panic` constructor; `anyhow::bail!` is a
  typed error value.
-/

/-- Table-construction step of `FastGF256::new` (fast_gf256.rs): one iteration
of the loop body: record `exp_table[i] = x`, `log_table[x] = i`, then
`x <<= 1` with conditional reduction by the full primitive polynomial 0x11D. -/
def gfStep (s : List Nat × List Nat × Nat) (i : Nat) : List Nat × List Nat × Nat :=
  let e := s.1 ++ [s.2.2]
  let l := s.2.1.set s.2.2 i
  let x := s.2.2 * 2
  (e, l, if 256 ≤ x then x ^^^ 285 else x)

/-- The `exp_table` and `log_table` of `FastGF256::new`: 256 iterations of
`gfStep` starting from `x = 1` and zeroed tables. -/
def gfTables : List Nat × List Nat :=
  let r := (List.range 256).foldl gfStep ([], List.replicate 256 0, 1)
  (r.1, r.2.1)

/-- `exp_table` of `FastGF256`. -/
def expT : List Nat := gfTables.1

/-- `log_table` of `FastGF256`. -/
def logT : List Nat := gfTables.2

/-- `exp_table[i]` lookup (all uses have `i < 256`). -/
def gexp (i : Nat) : Nat := expT.getD i 0

/-- `log_table[a]` lookup (all uses have `a < 256`). -/
def glog (a : Nat) : Nat := logT.getD a 0

/-- `GF256::add` (and `sub`): XOR. -/
def gadd (a b : Nat) : Nat := a ^^^ b

/-- `GF256::mul` for `FastGF256`: zero guard from the trait default, then
`exp[(log a + log b) % 255]` from `FastGF256::_mul`. -/
def fastMul (a b : Nat) : Nat :=
  if a = 0 ∨ b = 0 then 0 else gexp ((glog a + glog b) % 255)

/-- The value computed by `FastGF256::_div` (no zero-divisor guard):
`exp[(log a - log b + 255) % 255]`, the subtraction done in `i16`.
Combined with the trait-level `a = 0` early return. -/
def fastDivT (a b : Nat) : Nat :=
  if a = 0 then 0 else gexp ((glog a + 255 - glog b) % 255)

/-- `GF256::div` for `FastGF256`: panics (`none`) on a zero divisor. -/
def fastDiv (a b : Nat) : Option Nat :=
  if b = 0 then none else some (fastDivT a b)

/-- `GF256::pow` for `FastGF256`: trait guards (`n = 0 → 1`, `a = 0 → 0`),
then `exp[(log a * n) % 255]` from `FastGF256::_pow`. -/
def fastPow (a n : Nat) : Nat :=
  if n = 0 then 1 else if a = 0 then 0 else gexp ((glog a * n) % 255)

/-- The value computed by `FastGF256::_inverse`: `exp[255 - log a]`. -/
def fastInvT (a : Nat) : Nat := gexp (255 - glog a)

/-- `GF256::inverse` for `FastGF256`: panics (`none`) on zero. -/
def fastInv (a : Nat) : Option Nat :=
  if a = 0 then none else some (fastInvT a)

/-- `GF256::alpha_pow` (trait default): `pow 2 n`. -/
def alphaPow (n : Nat) : Nat := fastPow 2 n

/-- One multiplication-by-x step of `SimpleGF256::mul`'s loop on `b`:
`b = (b << 1) ^ (PRIMITIVE_POLY * (b >> 7))` in `u8` (the shift truncates). -/
def xtime (b : Nat) : Nat := ((b * 2) % 256) ^^^ (29 * (b / 128))

/-- The shift-and-XOR loop of `SimpleGF256::mul`, with explicit fuel: the
loop halves `a` each iteration, so 8 iterations exhaust any `u8`. -/
def smulFuel : Nat → Nat → Nat → Nat
  | 0, _, _ => 0
  | f + 1, a, b =>
    if a = 0 then 0
    else (if a % 2 = 1 then b else 0) ^^^ smulFuel f (a / 2) (xtime b)

/-- `SimpleGF256::mul` (for `u8` inputs; fuel 8 covers `a < 256`). -/
def smul (a b : Nat) : Nat := smulFuel 8 a b

/-- The square-and-multiply loop of `SimpleGF256::pow`, with explicit fuel
(8 iterations exhaust a `u8` exponent); `acc` is `result`. -/
def spowFuel : Nat → Nat → Nat → Nat → Nat
  | 0, _, _, acc => acc
  | f + 1, a, n, acc =>
    if n = 0 then acc
    else spowFuel f (smul a a) (n / 2) (if n % 2 = 1 then smul acc a else acc)

/-- `SimpleGF256::pow`. -/
def spow (a n : Nat) : Nat := spowFuel 8 a n 1

/-- `GF256::mul` for `SimpleGF256`: trait zero guard then `SimpleGF256::mul`. -/
def simpleMul (a b : Nat) : Nat := if a = 0 ∨ b = 0 then 0 else smul a b

/-- `GF256::pow` for `SimpleGF256`: trait guards then `SimpleGF256::pow`. -/
def simplePow (a n : Nat) : Nat :=
  if n = 0 then 1 else if a = 0 then 0 else spow a n

/-- The value computed by `SimpleGF256::_inverse`: `pow a 254` through the
trait-level `pow` (with its guards). -/
def simpleInvT (a : Nat) : Nat := simplePow a 254

/-- `GF256::inverse` for `SimpleGF256`: panics (`none`) on zero. -/
def simpleInv (a : Nat) : Option Nat :=
  if a = 0 then none else some (simpleInvT a)

/-- The value computed by `SimpleGF256::_div`: `mul a (inverse b)` through the
trait-level operations; combined with the trait `div` guards (`b = 0` panics
before `_div` runs, `a = 0` returns 0). -/
def simpleDiv (a b : Nat) : Option Nat :=
  if b = 0 then none else some (if a = 0 then 0 else simpleMul a (simpleInvT b))

/-! ### Derived table literals

`expL`/`logL` pack the 256 table entries of `expT`/`logT` into a single
natural number, eight bits per entry (proved equal below); kernel-friendly
lookups for the exhaustive checks. -/

def expL : Nat := 196399186132762991095636190500253616596015235491845904390934131204566729811279907533350396911849308369980407930211792886676177716114413596927226281320667849074153250292142078322078523454783769371330644527748332569775799736597138689209414361655909189797704348576571341618578513091914276733823536811983159184670241101389106770742111972544046611613419071373128839461947995247144387545601792401549928493166230602197002776588410010719461928803626766131916564469880306225642490070614532302365327386183711788405988368587450126860104521812733624228754006314931070421678855833139036212041460909518558972187919380887764206081

def logL : Nat := 22135253156888987530748098150270024343632497605293634117281264061560962248099620766229961468867162294233796152347975563017024165690400661622462404646302566225833645086064538892198543335321514950294300187779610338557442029018619797274438901674641748676613670242915365385819254959901651105240253464034662486586186382979728982817772067067513442677601938078891989292316012868233806586592927239821351197800766822366321181463280924672822998103315976779850880337712374790938628529953751181886374687897611504386983350015558142994211516619836411558782076806704747441947939324473761869443721989389604670425385080942269787406080

/-- The `exp_table` as an explicit list (proved equal to `expT` below). -/
def expLlist : List Nat := [1, 2, 4, 8, 16, 32, 64, 128, 29, 58, 116, 232, 205, 135, 19, 38, 76, 152, 45, 90, 180, 117, 234, 201, 143, 3, 6, 12, 24, 48, 96, 192, 157, 39, 78, 156, 37, 74, 148, 53, 106, 212, 181, 119, 238, 193, 159, 35, 70, 140, 5, 10, 20, 40, 80, 160, 93, 186, 105, 210, 185, 111, 222, 161, 95, 190, 97, 194, 153, 47, 94, 188, 101, 202, 137, 15, 30, 60, 120, 240, 253, 231, 211, 187, 107, 214, 177, 127, 254, 225, 223, 163, 91, 182, 113, 226, 217, 175, 67, 134, 17, 34, 68, 136, 13, 26, 52, 104, 208, 189, 103, 206, 129, 31, 62, 124, 248, 237, 199, 147, 59, 118, 236, 197, 151, 51, 102, 204, 133, 23, 46, 92, 184, 109, 218, 169, 79, 158, 33, 66, 132, 21, 42, 84, 168, 77, 154, 41, 82, 164, 85, 170, 73, 146, 57, 114, 228, 213, 183, 115, 230, 209, 191, 99, 198, 145, 63, 126, 252, 229, 215, 179, 123, 246, 241, 255, 227, 219, 171, 75, 150, 49, 98, 196, 149, 55, 110, 220, 165, 87, 174, 65, 130, 25, 50, 100, 200, 141, 7, 14, 28, 56, 112, 224, 221, 167, 83, 166, 81, 162, 89, 178, 121, 242, 249, 239, 195, 155, 43, 86, 172, 69, 138, 9, 18, 36, 72, 144, 61, 122, 244, 245, 247, 243, 251, 235, 203, 139, 11, 22, 44, 88, 176, 125, 250, 233, 207, 131, 27, 54, 108, 216, 173, 71, 142, 1]

/-- The `log_table` as an explicit list (proved equal to `logT` below). -/
def logLlist : List Nat := [0, 255, 1, 25, 2, 50, 26, 198, 3, 223, 51, 238, 27, 104, 199, 75, 4, 100, 224, 14, 52, 141, 239, 129, 28, 193, 105, 248, 200, 8, 76, 113, 5, 138, 101, 47, 225, 36, 15, 33, 53, 147, 142, 218, 240, 18, 130, 69, 29, 181, 194, 125, 106, 39, 249, 185, 201, 154, 9, 120, 77, 228, 114, 166, 6, 191, 139, 98, 102, 221, 48, 253, 226, 152, 37, 179, 16, 145, 34, 136, 54, 208, 148, 206, 143, 150, 219, 189, 241, 210, 19, 92, 131, 56, 70, 64, 30, 66, 182, 163, 195, 72, 126, 110, 107, 58, 40, 84, 250, 133, 186, 61, 202, 94, 155, 159, 10, 21, 121, 43, 78, 212, 229, 172, 115, 243, 167, 87, 7, 112, 192, 247, 140, 128, 99, 13, 103, 74, 222, 237, 49, 197, 254, 24, 227, 165, 153, 119, 38, 184, 180, 124, 17, 68, 146, 217, 35, 32, 137, 46, 55, 63, 209, 91, 149, 188, 207, 205, 144, 135, 151, 178, 220, 252, 190, 97, 242, 86, 211, 171, 20, 42, 93, 158, 132, 60, 57, 83, 71, 109, 65, 162, 31, 45, 67, 216, 183, 123, 164, 118, 196, 23, 73, 236, 127, 12, 111, 246, 108, 161, 59, 82, 41, 157, 85, 170, 251, 96, 134, 177, 187, 204, 62, 90, 203, 89, 95, 176, 156, 169, 160, 81, 11, 245, 22, 235, 122, 117, 44, 215, 79, 174, 213, 233, 230, 231, 173, 232, 116, 214, 244, 234, 168, 80, 88, 175]

set_option maxRecDepth 10000
set_option maxHeartbeats 1000000

theorem gfTables_eq : gfTables = (expLlist, logLlist) := by decide!

/-- Packed lookup equal to `gexp` on bytes. -/
def gexpB (i : Nat) : Nat := (expL >>> (8 * i)) % 256

/-- Packed lookup equal to `glog` on bytes. -/
def glogB (a : Nat) : Nat := (logL >>> (8 * a)) % 256

theorem gexp_eq_B : ∀ i, i < 256 → gexp i = gexpB i := by
  have h : expT = expLlist := congrArg Prod.fst gfTables_eq
  simp only [gexp, expT, h]
  decide!

theorem glog_eq_B : ∀ a, a < 256 → glog a = glogB a := by
  have h : logT = logLlist := congrArg Prod.snd gfTables_eq
  simp only [glog, logT, h]
  decide!

theorem gexpB_lt (i : Nat) : gexpB i < 256 := Nat.mod_lt _ (by norm_num)

theorem glogB_lt (a : Nat) : glogB a < 256 := Nat.mod_lt _ (by norm_num)

theorem gexpB_zero : gexpB 0 = 1 := by decide!

theorem gexpB_255 : gexpB 255 = 1 := by decide!

theorem gexpB_ne : ∀ i, i < 255 → gexpB i ≠ 0 := by decide!

/-- The recurrence of the table-building loop, read off the finished table:
each `exp` entry is the previous one multiplied by x (with reduction). -/
theorem expB_step : ∀ i, i < 255 → gexpB (i + 1) = xtime (gexpB i) := by decide!

theorem expB_logB : ∀ a, a < 256 → a ≠ 0 → gexpB (glogB a % 255) = a := by decide!

theorem logB_expB : ∀ i, i < 255 → glogB (gexpB i) % 255 = i := by decide!

/-- Normalized exponential: `α^i` for an arbitrary index, reduced mod 255. -/
def E (i : Nat) : Nat := gexpB (i % 255)

theorem E_lt (i : Nat) : E i < 256 := gexpB_lt _

theorem E_ne (i : Nat) : E i ≠ 0 := gexpB_ne _ (Nat.mod_lt _ (by norm_num))

theorem E_zero : E 0 = 1 := gexpB_zero

theorem gexpB_eq_E : ∀ i, i ≤ 255 → gexpB i = E i := by
  intro i hi
  rcases Nat.lt_or_ge i 255 with h | h
  · simp [E, Nat.mod_eq_of_lt h]
  · have : i = 255 := le_antisymm hi h
    subst this
    simp [E, gexpB_255, gexpB_zero]

theorem E_mod (i : Nat) : E (i % 255) = E i := by
  unfold E
  congr 1
  omega

theorem E_step (i : Nat) : E (i + 1) = xtime (E i) := by
  rcases Nat.lt_or_ge (i % 255) 254 with h | h
  · have h1 : (i + 1) % 255 = i % 255 + 1 := by omega
    rw [E, h1, expB_step _ (by omega)]
    rfl
  · have h2 : i % 255 = 254 := by
      have := Nat.mod_lt i (show 0 < 255 by norm_num)
      omega
    have h1 : (i + 1) % 255 = 0 := by omega
    rw [E, h1, gexpB_zero, ← gexpB_255, expB_step 254 (by norm_num), E, h2]

theorem exp_log (a : Nat) (ha : a < 256) (h0 : a ≠ 0) : E (glogB a) = a :=
  expB_logB a ha h0

theorem log_exp (i : Nat) : glogB (E i) % 255 = i % 255 := by
  rw [E, logB_expB _ (Nat.mod_lt _ (by norm_num))]

/-! ### XOR-linearity of `xtime` and of the reference multiplication -/

theorem xor_lt_256 {b c : Nat} (hb : b < 256) (hc : c < 256) : b ^^^ c < 256 :=
  Nat.xor_lt_two_pow (n := 8) hb hc

theorem xtime_eq (b : Nat) : xtime b = 2 * (b % 128) ^^^ 29 * (b / 128) := by
  unfold xtime
  congr 1
  omega

theorem xor_mod_128 (b c : Nat) : (b ^^^ c) % 128 = b % 128 ^^^ c % 128 := by
  have h128 : (128 : Nat) = 2 ^ 7 := by norm_num
  rw [h128]
  apply Nat.eq_of_testBit_eq
  intro i
  simp only [Nat.testBit_mod_two_pow, Nat.testBit_xor]
  by_cases hi : i < 7 <;> simp [hi]

theorem xor_div_128 (b c : Nat) : (b ^^^ c) / 128 = b / 128 ^^^ c / 128 := by
  have h (x : Nat) : x / 128 = x >>> 7 := by
    rw [Nat.shiftRight_eq_div_pow]
  rw [h, h, h]
  apply Nat.eq_of_testBit_eq
  intro i
  simp [Nat.testBit_shiftRight, Nat.testBit_xor]

theorem xor_mul_2 (b c : Nat) : 2 * (b ^^^ c) = 2 * b ^^^ 2 * c := by
  have h (x : Nat) : 2 * x = x <<< 1 := by
    rw [Nat.shiftLeft_eq]
    ring
  rw [h, h, h]
  apply Nat.eq_of_testBit_eq
  intro i
  simp only [Nat.testBit_shiftLeft, Nat.testBit_xor]
  cases i with
  | zero => simp
  | succ j => simp

theorem xtime_linear {b c : Nat} (hb : b < 256) (hc : c < 256) :
    xtime (b ^^^ c) = xtime b ^^^ xtime c := by
  have hdb : b / 128 < 2 := by omega
  have hdc : c / 128 < 2 := by omega
  have h29 : 29 * (b / 128 ^^^ c / 128) = 29 * (b / 128) ^^^ 29 * (c / 128) := by
    interval_cases h1 : b / 128 <;> interval_cases h2 : c / 128 <;> simp
  rw [xtime_eq, xtime_eq, xtime_eq, xor_mod_128, xor_div_128, xor_mul_2, h29]
  rw [Nat.xor_assoc, Nat.xor_assoc]
  congr 1
  rw [← Nat.xor_assoc, ← Nat.xor_assoc]
  congr 1
  exact Nat.xor_comm _ _

theorem xtime_lt {b : Nat} (hb : b < 256) : xtime b < 256 := by
  rw [xtime_eq]
  have h1 : 2 * (b % 128) < 256 := by omega
  have h2 : 29 * (b / 128) < 256 := by omega
  exact xor_lt_256 h1 h2

theorem xtime_zero : xtime 0 = 0 := by decide

theorem xor_left_comm (a b c : Nat) : a ^^^ (b ^^^ c) = b ^^^ (a ^^^ c) := by
  rw [← Nat.xor_assoc, Nat.xor_comm a b, Nat.xor_assoc]

theorem smulFuel_zero_left (f b : Nat) : smulFuel f 0 b = 0 := by
  cases f <;> rfl

theorem smulFuel_zero_right : ∀ f a, smulFuel f a 0 = 0 := by
  intro f
  induction f with
  | zero => intro a; rfl
  | succ f ih =>
    intro a
    unfold smulFuel
    rw [xtime_zero, ih]
    by_cases h : a = 0 <;> simp [h]

theorem smulFuel_lt : ∀ f a {b}, b < 256 → smulFuel f a b < 256 := by
  intro f
  induction f with
  | zero => intro a b _; norm_num [smulFuel]
  | succ f ih =>
    intro a b hb
    unfold smulFuel
    by_cases h : a = 0
    · simp [h]
    · simp only [h, if_false]
      refine xor_lt_256 ?_ (ih _ (xtime_lt hb))
      by_cases ho : a % 2 = 1 <;> simp [ho, hb]

theorem smulFuel_linear : ∀ f a {b c}, b < 256 → c < 256 →
    smulFuel f a (b ^^^ c) = smulFuel f a b ^^^ smulFuel f a c := by
  intro f
  induction f with
  | zero => intro a b c _ _; simp [smulFuel]
  | succ f ih =>
    intro a b c hb hc
    unfold smulFuel
    by_cases h : a = 0
    · simp [h]
    · simp only [h, if_false]
      rw [xtime_linear hb hc, ih _ (xtime_lt hb) (xtime_lt hc)]
      by_cases ho : a % 2 = 1 <;>
        simp [ho, Nat.xor_assoc, Nat.xor_comm, xor_left_comm]

theorem smulFuel_xtime : ∀ f a {b}, b < 256 →
    smulFuel f a (xtime b) = xtime (smulFuel f a b) := by
  intro f
  induction f with
  | zero => intro a b _; simp [smulFuel, xtime_zero]
  | succ f ih =>
    intro a b hb
    unfold smulFuel
    by_cases h : a = 0
    · simp [h, xtime_zero]
    · simp only [h, if_false]
      rw [ih _ (xtime_lt hb)]
      have hs : smulFuel f (a / 2) (xtime b) < 256 := smulFuel_lt _ _ (xtime_lt hb)
      by_cases ho : a % 2 = 1
      · simp only [ho, if_true]
        rw [← xtime_linear hb hs]
      · simp only [ho, if_false]
        simp [Nat.zero_xor]

theorem smulOne : ∀ a, a < 256 → smul a 1 = a := by decide!

theorem smulOneLeft (b : Nat) : smul 1 b = b := by
  show smulFuel 8 1 b = b
  unfold smulFuel
  norm_num [smulFuel_zero_left]

theorem E_smul (i : Nat) : ∀ j, smul (E i) (E j) = E (i + j) := by
  intro j
  induction j with
  | zero => rw [E_zero, smulOne _ (E_lt i), Nat.add_zero]
  | succ j ih =>
    rw [E_step, show i + (j+1) = (i + j) + 1 by ring, E_step, ← ih]
    exact smulFuel_xtime 8 _ (E_lt j)

theorem E_congr {i j : Nat} (h : i % 255 = j % 255) : E i = E j := by
  unfold E
  rw [h]

theorem smulEqE {a b : Nat} (ha : a < 256) (h0 : a ≠ 0) (hb : b < 256) (h1 : b ≠ 0) :
    smul a b = E (glogB a + glogB b) :=
  calc smul a b = smul (E (glogB a)) (E (glogB b)) := by
        rw [exp_log a ha h0, exp_log b hb h1]
    _ = E (glogB a + glogB b) := E_smul _ _

theorem smulNonzero {a b : Nat} (ha : a < 256) (h0 : a ≠ 0) (hb : b < 256) (h1 : b ≠ 0) :
    smul a b ≠ 0 := by
  rw [smulEqE ha h0 hb h1]
  exact E_ne _

theorem smulComm {a b : Nat} (ha : a < 256) (hb : b < 256) : smul a b = smul b a := by
  by_cases h0 : a = 0
  · subst h0
    show smulFuel 8 0 b = smulFuel 8 b 0
    rw [smulFuel_zero_left, smulFuel_zero_right]
  · by_cases h1 : b = 0
    · subst h1
      show smulFuel 8 a 0 = smulFuel 8 0 a
      rw [smulFuel_zero_left, smulFuel_zero_right]
    · rw [smulEqE ha h0 hb h1, smulEqE hb h1 ha h0, Nat.add_comm]

theorem smulZeroRight (a : Nat) : smul a 0 = 0 := smulFuel_zero_right _ _

theorem smulZeroLeft (b : Nat) : smul 0 b = 0 := smulFuel_zero_left _ _

theorem smulAssoc {x y z : Nat} (hx : x < 256) (hy : y < 256) (hz : z < 256) :
    smul (smul x y) z = smul x (smul y z) := by
  by_cases h0 : x = 0
  · rw [h0, smulZeroLeft, smulZeroLeft, smulZeroLeft]
  by_cases h1 : y = 0
  · rw [h1, smulZeroRight, smulZeroLeft, smulZeroRight]
  by_cases h2 : z = 0
  · rw [h2, smulZeroRight, smulZeroRight, smulZeroRight]
  have hxy := smulEqE hx h0 hy h1
  have hyz := smulEqE hy h1 hz h2
  rw [hxy, hyz]
  rw [smulEqE (E_lt _) (E_ne _) hz h2, smulEqE hx h0 (E_lt _) (E_ne _)]
  apply E_congr
  have hl := log_exp (glogB x + glogB y)
  have hr := log_exp (glogB y + glogB z)
  omega

/-! ### Bridging the table-based operations to the index form `E` -/

theorem fastMul_zero_left (b : Nat) : fastMul 0 b = 0 := by simp [fastMul]

theorem fastMul_zero_right (a : Nat) : fastMul a 0 = 0 := by simp [fastMul]

theorem fastMul_eq_E {a b : Nat} (ha : a < 256) (h0 : a ≠ 0) (hb : b < 256) (h1 : b ≠ 0) :
    fastMul a b = E (glogB a + glogB b) := by
  unfold fastMul
  rw [if_neg (by tauto), glog_eq_B a ha, glog_eq_B b hb,
    gexp_eq_B _ (lt_of_lt_of_le (Nat.mod_lt _ (by norm_num)) (by norm_num))]
  rfl

/-- Shared agreement of the two multiplications on bytes (test oracle). -/
theorem fastMul_eq_smul {a b : Nat} (ha : a < 256) (hb : b < 256) :
    fastMul a b = smul a b := by
  by_cases h0 : a = 0
  · rw [h0, fastMul_zero_left, smulZeroLeft]
  by_cases h1 : b = 0
  · rw [h1, fastMul_zero_right, smulZeroRight]
  rw [fastMul_eq_E ha h0 hb h1, smulEqE ha h0 hb h1]

theorem fastMul_lt {a b : Nat} (ha : a < 256) (hb : b < 256) : fastMul a b < 256 := by
  rw [fastMul_eq_smul ha hb]
  exact smulFuel_lt _ _ hb

theorem spowFuel_E : ∀ f n, n < 2 ^ f → ∀ i acc, acc < 256 →
    spowFuel f (E i) n acc = smul acc (E (i * n)) := by
  intro f
  induction f with
  | zero =>
    intro n hn i acc hacc
    have h0 : n = 0 := by omega
    subst h0
    rw [Nat.mul_zero, E_zero, smulOne _ hacc]
    rfl
  | succ f ih =>
    intro n hn i acc hacc
    by_cases h0 : n = 0
    · subst h0
      rw [Nat.mul_zero, E_zero, smulOne _ hacc]
      rfl
    unfold spowFuel
    rw [if_neg h0]
    have hsq : smul (E i) (E i) = E (i + i) := E_smul i i
    rw [hsq, ih (n / 2) (by omega)]
    · by_cases ho : n % 2 = 1
      · simp only [ho, if_true]
        rw [smulAssoc hacc (E_lt _) (E_lt _), E_smul]
        congr 1
        apply E_congr
        obtain ⟨k, hk⟩ : ∃ k, n = 2 * k + 1 := ⟨n / 2, by omega⟩
        subst hk
        have h2 : (2 * k + 1) / 2 = k := by omega
        rw [h2]
        congr 1
        ring
      · simp only [ho, if_false]
        congr 1
        apply E_congr
        obtain ⟨k, hk⟩ : ∃ k, n = 2 * k := ⟨n / 2, by omega⟩
        subst hk
        have h2 : 2 * k / 2 = k := by omega
        rw [h2]
        congr 1
        ring
    · by_cases ho : n % 2 = 1 <;> simp only [ho, if_true, if_false]
      · exact smulFuel_lt _ _ (E_lt i)
      · exact hacc

theorem spow_eq_E {a n : Nat} (ha : a < 256) (h0 : a ≠ 0) (hn : n < 256) :
    spow a n = E (glogB a * n) := by
  have h1 : spow a n = spowFuel 8 (E (glogB a)) n 1 := by
    rw [exp_log a ha h0]
    rfl
  rw [h1, spowFuel_E 8 n (by norm_num; omega) _ 1 (by norm_num), smulOneLeft]

theorem fastPow_eq_E {a n : Nat} (ha : a < 256) (h0 : a ≠ 0) (hn0 : n ≠ 0) :
    fastPow a n = E (glogB a * n) := by
  unfold fastPow
  rw [if_neg hn0, if_neg h0, glog_eq_B a ha,
    gexp_eq_B _ (lt_of_lt_of_le (Nat.mod_lt _ (by norm_num)) (by norm_num))]
  rfl

theorem fastInvT_eq_E {a : Nat} (ha : a < 256) (_h0 : a ≠ 0) :
    fastInvT a = E (255 - glogB a) := by
  unfold fastInvT
  rw [glog_eq_B a ha, gexp_eq_B _ (by omega), gexpB_eq_E _ (by omega)]

theorem fastDivT_eq_E {a b : Nat} (ha : a < 256) (h0 : a ≠ 0) (hb : b < 256) :
    fastDivT a b = E (glogB a + 255 - glogB b) := by
  unfold fastDivT
  rw [if_neg h0, glog_eq_B a ha, glog_eq_B b hb,
    gexp_eq_B _ (lt_of_lt_of_le (Nat.mod_lt _ (by norm_num)) (by norm_num))]
  rfl

theorem simpleMul_eq_smul (a b : Nat) : simpleMul a b = smul a b := by
  unfold simpleMul
  split
  · rename_i h
    rcases h with h | h
    · rw [h, smulZeroLeft]
    · rw [h, smulZeroRight]
  · rfl

theorem simpleInvT_eq_E {b : Nat} (hb : b < 256) (h1 : b ≠ 0) :
    simpleInvT b = E (glogB b * 254) := by
  unfold simpleInvT simplePow
  rw [if_neg (by norm_num), if_neg h1]
  exact spow_eq_E hb h1 (by norm_num)

/-- **C5.** For all bytes `a`, `b`, the shift-and-XOR reference implementation
(`SimpleGF256`) and the exp/log-table implementation (`FastGF256`) return
identical results for `mul`; likewise for the derived `div`, `pow` and
`inverse` wherever their preconditions (nonzero divisor, nonzero inverse
argument) hold. -/
theorem C5_simple_fast_agree (a b : Nat) (ha : a < 256) (hb : b < 256) :
    fastMul a b = simpleMul a b ∧
    (b ≠ 0 → fastDiv a b = simpleDiv a b) ∧
    fastPow a b = simplePow a b ∧
    (a ≠ 0 → fastInv a = simpleInv a) := by
  refine ⟨?_, ?_, ?_, ?_⟩
  · rw [fastMul_eq_smul ha hb, simpleMul_eq_smul]
  · intro h1
    unfold fastDiv simpleDiv
    rw [if_neg h1, if_neg h1]
    congr 1
    by_cases h0 : a = 0
    · rw [h0, if_pos rfl]
      rfl
    · rw [if_neg h0, fastDivT_eq_E ha h0 hb, simpleMul_eq_smul, simpleInvT_eq_E hb h1,
        smulEqE ha h0 (E_lt _) (E_ne _)]
      apply E_congr
      have ht := log_exp (glogB b * 254)
      have hla := glogB_lt a
      have hlb := glogB_lt b
      omega
  · by_cases hn : b = 0
    · rw [hn]
      rfl
    by_cases h0 : a = 0
    · rw [h0]
      unfold fastPow simplePow
      rw [if_neg hn, if_neg hn]
      rfl
    rw [fastPow_eq_E ha h0 hn]
    unfold simplePow
    rw [if_neg hn, if_neg h0, spow_eq_E ha h0 hb]
  · intro h0
    unfold fastInv simpleInv
    rw [if_neg h0, if_neg h0]
    congr 1
    rw [fastInvT_eq_E ha h0, simpleInvT_eq_E ha h0]
    apply E_congr
    have hla := glogB_lt a
    omega

theorem C5_simple_fast_agree_witness :
    fastMul 3 7 = simpleMul 3 7 ∧
    (7 ≠ 0 → fastDiv 3 7 = simpleDiv 3 7) ∧
    fastPow 3 7 = simplePow 3 7 ∧
    (3 ≠ 0 → fastInv 3 = simpleInv 3) :=
  C5_simple_fast_agree 3 7 (by norm_num) (by norm_num)

/-- **C9.** The table-based GF(256) operations satisfy the field laws: `add`
and `mul` are commutative and associative, `mul` distributes over `add`,
`a*1 = a`, and for nonzero `a`, `a * a⁻¹ = 1` and `a^255 = 1`. -/
theorem C9_field_laws (a b c : Nat) (ha : a < 256) (hb : b < 256) (hc : c < 256) :
    gadd a b = gadd b a ∧
    gadd (gadd a b) c = gadd a (gadd b c) ∧
    fastMul a b = fastMul b a ∧
    fastMul (fastMul a b) c = fastMul a (fastMul b c) ∧
    fastMul a (gadd b c) = gadd (fastMul a b) (fastMul a c) ∧
    fastMul a 1 = a ∧
    (a ≠ 0 → fastInv a = some (fastInvT a) ∧ fastMul a (fastInvT a) = 1 ∧
      fastPow a 255 = 1) := by
  refine ⟨Nat.xor_comm _ _, Nat.xor_assoc _ _ _, ?_, ?_, ?_, ?_, ?_⟩
  · rw [fastMul_eq_smul ha hb, fastMul_eq_smul hb ha, smulComm ha hb]
  · rw [fastMul_eq_smul ha hb, fastMul_eq_smul hb hc,
      fastMul_eq_smul (a := smul a b) (smulFuel_lt 8 a hb) hc,
      fastMul_eq_smul (b := smul b c) ha (smulFuel_lt 8 b hc),
      smulAssoc ha hb hc]
  · have hbc : gadd b c < 256 := xor_lt_256 hb hc
    rw [fastMul_eq_smul ha hbc, fastMul_eq_smul ha hb, fastMul_eq_smul ha hc]
    exact smulFuel_linear 8 a hb hc
  · rw [fastMul_eq_smul ha (by norm_num), smulOne a ha]
  · intro h0
    refine ⟨by rw [fastInv, if_neg h0], ?_, ?_⟩
    · have hinv := fastInvT_eq_E ha h0
      rw [hinv, fastMul_eq_E ha h0 (E_lt _) (E_ne _), ← E_zero]
      apply E_congr
      have ht := log_exp (255 - glogB a)
      have hla := glogB_lt a
      omega
    · unfold fastPow
      rw [if_neg (by norm_num), if_neg h0, glog_eq_B a ha, Nat.mul_mod_left,
        gexp_eq_B 0 (by norm_num), gexpB_zero]

theorem C9_field_laws_witness :
    gadd 3 5 = gadd 5 3 ∧
    gadd (gadd 3 5) 9 = gadd 3 (gadd 5 9) ∧
    fastMul 3 5 = fastMul 5 3 ∧
    fastMul (fastMul 3 5) 9 = fastMul 3 (fastMul 5 9) ∧
    fastMul 3 (gadd 5 9) = gadd (fastMul 3 5) (fastMul 3 9) ∧
    fastMul 3 1 = 3 ∧
    (3 ≠ 0 → fastInv 3 = some (fastInvT 3) ∧ fastMul 3 (fastInvT 3) = 1 ∧
      fastPow 3 255 = 1) :=
  C9_field_laws 3 5 9 (by norm_num) (by norm_num) (by norm_num)

/-! ### Standalone GF-algebra helpers (shared by the polynomial layer) -/

theorem mulCommH {a b : Nat} (ha : a < 256) (hb : b < 256) : fastMul a b = fastMul b a := by
  rw [fastMul_eq_smul ha hb, fastMul_eq_smul hb ha, smulComm ha hb]

theorem mulAssocH {a b c : Nat} (ha : a < 256) (hb : b < 256) (hc : c < 256) :
    fastMul (fastMul a b) c = fastMul a (fastMul b c) := by
  rw [fastMul_eq_smul ha hb, fastMul_eq_smul hb hc,
    fastMul_eq_smul (a := smul a b) (smulFuel_lt 8 a hb) hc,
    fastMul_eq_smul (b := smul b c) ha (smulFuel_lt 8 b hc),
    smulAssoc ha hb hc]

theorem mulDistribH {a b c : Nat} (ha : a < 256) (hb : b < 256) (hc : c < 256) :
    fastMul a (gadd b c) = gadd (fastMul a b) (fastMul a c) := by
  simp only [gadd]
  rw [fastMul_eq_smul ha (xor_lt_256 hb hc), fastMul_eq_smul ha hb, fastMul_eq_smul ha hc]
  exact smulFuel_linear 8 a hb hc

theorem mulOneH {a : Nat} (ha : a < 256) : fastMul a 1 = a := by
  rw [fastMul_eq_smul ha (by norm_num), smulOne a ha]

theorem mulOneLeftH {a : Nat} (ha : a < 256) : fastMul 1 a = a := by
  rw [fastMul_eq_smul (by norm_num) ha, smulOneLeft]

theorem fastPow_lt (x n : Nat) : fastPow x n < 256 := by
  unfold fastPow
  split
  · norm_num
  split
  · norm_num
  · rw [gexp_eq_B _ (lt_of_lt_of_le (Nat.mod_lt _ (by norm_num)) (by norm_num))]
    exact gexpB_lt _

theorem fastPow_zero (x : Nat) : fastPow x 0 = 1 := by simp [fastPow]

theorem fastPow_add {x : Nat} (hx : x < 256) (i j : Nat) :
    fastPow x (i + j) = fastMul (fastPow x i) (fastPow x j) := by
  by_cases h0 : x = 0
  · subst h0
    by_cases hi : i = 0
    · subst hi
      rw [fastPow_zero, mulOneLeftH (fastPow_lt 0 j), Nat.zero_add]
    by_cases hj : j = 0
    · subst hj
      rw [fastPow_zero, mulOneH (fastPow_lt 0 i), Nat.add_zero]
    · have hij : i + j ≠ 0 := by omega
      unfold fastPow
      rw [if_neg hij, if_pos rfl, if_neg hi, if_pos rfl]
      rfl
  by_cases hi : i = 0
  · subst hi
    rw [fastPow_zero, mulOneLeftH (fastPow_lt x j), Nat.zero_add]
  by_cases hj : j = 0
  · subst hj
    rw [fastPow_zero, mulOneH (fastPow_lt x i), Nat.add_zero]
  have hij : i + j ≠ 0 := by omega
  rw [fastPow_eq_E hx h0 hij, fastPow_eq_E hx h0 hi, fastPow_eq_E hx h0 hj,
    fastMul_eq_E (E_lt _) (E_ne _) (E_lt _) (E_ne _)]
  apply E_congr
  have h1 := log_exp (glogB x * i)
  have h2 := log_exp (glogB x * j)
  have h3 : glogB x * (i + j) = glogB x * i + glogB x * j := by ring
  omega

theorem fastMul_zero_iff {a b : Nat} (ha : a < 256) (hb : b < 256) :
    fastMul a b = 0 ↔ a = 0 ∨ b = 0 := by
  constructor
  · intro h
    by_contra hc
    push_neg at hc
    exact smulNonzero ha hc.1 hb hc.2 (by rw [← fastMul_eq_smul ha hb]; exact h)
  · intro h
    rcases h with h | h
    · rw [h, fastMul_zero_left]
    · rw [h, fastMul_zero_right]

/-! ### Polynomial operations over GF(256) (trait `GF256Poly`, gf.rs) -/

/-- `GF256Poly::add_poly`: elementwise XOR, length `max`. -/
def addPoly (a b : List Nat) : List Nat :=
  (List.range (max a.length b.length)).map (fun i => gadd (a.getD i 0) (b.getD i 0))

/-- `GF256Poly::mul_poly`: convolution into a vector of length `|a|+|b|-1`. -/
def mulPoly (a b : List Nat) : List Nat :=
  (List.range a.length).foldl (fun res i =>
    (List.range b.length).foldl (fun res j =>
      res.set (i + j) (gadd (res.getD (i + j) 0) (fastMul (a.getD i 0) (b.getD j 0)))) res)
    (List.replicate (a.length + b.length - 1) 0)

/-- `GF256Poly::eval_poly`: sum of `c_i * x^i` (the exponent is cast to `u8`). -/
def evalPoly (p : List Nat) (x : Nat) : Nat :=
  (List.range p.length).foldl
    (fun acc i => gadd acc (fastMul (p.getD i 0) (fastPow x (i % 256)))) 0

/-- `GF256Poly::scale_poly`. -/
def scalePoly (p : List Nat) (s : Nat) : List Nat := p.map (fun c => fastMul c s)

/-- `GF256Poly::shift_poly`: prepend `k` zeros. -/
def shiftPoly (p : List Nat) (k : Nat) : List Nat := List.replicate k 0 ++ p

/-- Body of the inner subtraction loop of `GF256Poly::_div_poly` (iteration
`j` of the subtraction of `coef * divisor` from the remainder). -/
def subStep (divisor : List Nat) (coef i : Nat) (rem : List Nat) (j : Nat) : List Nat :=
  if divisor.getD (divisor.length - j - 1) 0 ≠ 0 then
    rem.set (rem.length - i - j - 1)
      (gadd (rem.getD (rem.length - i - j - 1) 0)
        (fastMul coef (divisor.getD (divisor.length - j - 1) 0)))
  else rem

/-- Body of the outer long-division loop of `GF256Poly::_div_poly` (iteration
`i`), acting on the `(quotient, remainder)` state. -/
def divStep (divisor : List Nat) (leader qlen : Nat)
    (s : List Nat × List Nat) (i : Nat) : List Nat × List Nat :=
  if s.2.getD (s.2.length - i - 1) 0 ≠ 0 then
    let coef := fastDivT (s.2.getD (s.2.length - i - 1) 0) leader
    (s.1.set (qlen - i - 1) coef,
      (List.range divisor.length).foldl (subStep divisor coef i) s.2)
  else s

/-- `GF256Poly::_div_poly`: long division; `none` models the two panics
(empty divisor, zero leading coefficient). -/
def divPoly (dividend divisor : List Nat) : Option (List Nat × List Nat) :=
  if divisor.isEmpty then none
  else
    let leader := divisor.getD (divisor.length - 1) 0
    if leader = 0 then none
    else if dividend.length < divisor.length ∨
        (dividend.length = divisor.length ∧
          dividend.getD (dividend.length - 1) 0 < leader) then
      some ([0], dividend)
    else
      let qlen := dividend.length - divisor.length + 1
      let qr := (List.range qlen).foldl (divStep divisor leader qlen)
        (List.replicate qlen 0, dividend)
      let act := qr.2.take (divisor.length - 1)
      some (qr.1, if act.isEmpty ∨ act.all (· == 0) then [0] else act)

/-- `GF256Poly::mod_poly`. -/
def modPoly (dividend divisor : List Nat) : Option (List Nat) :=
  (divPoly dividend divisor).map (·.2)

/-- `ReedSolomon::build_gen_poly` (identical in both crates): iteratively
multiply `[1]` by `(x + α^i)` via scalar multiplication plus shift. -/
def buildGenPoly (p : Nat) : List Nat :=
  (List.range p).foldl (fun g i =>
    addPoly (mulPoly g [alphaPow (i % 256)]) (shiftPoly g 1)) [1]

/-- Generic invariant preservation through a left fold. -/
theorem foldl_invariant {α β : Type} (P : α → Prop) (f : α → β → α)
    (h : ∀ a b, P a → P (f a b)) : ∀ (l : List β) (a : α), P a → P (l.foldl f a) := by
  intro l
  induction l with
  | nil => intro a ha; exact ha
  | cons x xs ih => intro a ha; exact ih _ (h a x ha)

theorem subStep_length (divisor : List Nat) (coef i : Nat) (rem : List Nat) (j : Nat) :
    (subStep divisor coef i rem j).length = rem.length := by
  unfold subStep
  split
  · exact List.length_set _ _ _
  · rfl

theorem divStep_lengths (divisor : List Nat) (leader qlen : Nat)
    (s : List Nat × List Nat) (i : Nat) :
    (divStep divisor leader qlen s i).1.length = s.1.length ∧
    (divStep divisor leader qlen s i).2.length = s.2.length := by
  unfold divStep
  split
  · refine ⟨List.length_set _ _ _, ?_⟩
    exact foldl_invariant (fun r : List Nat => r.length = s.2.length)
      (subStep divisor (fastDivT (s.2.getD (s.2.length - i - 1) 0) leader) i)
      (fun r j hr =>
        (subStep_length divisor (fastDivT (s.2.getD (s.2.length - i - 1) 0) leader)
          i r j).trans hr)
      (List.range divisor.length) s.2 rfl
  · exact ⟨rfl, rfl⟩

/-- Lengths of the final state of the division loop. -/
theorem divLoop_lengths (divisor : List Nat) (leader qlen : Nat) (l : List Nat)
    (s : List Nat × List Nat) :
    (l.foldl (divStep divisor leader qlen) s).1.length = s.1.length ∧
    (l.foldl (divStep divisor leader qlen) s).2.length = s.2.length := by
  have := foldl_invariant
    (fun t : List Nat × List Nat => t.1.length = s.1.length ∧ t.2.length = s.2.length)
    (divStep divisor leader qlen)
    (fun t i ht => by
      obtain ⟨h1, h2⟩ := divStep_lengths divisor leader qlen t i
      exact ⟨h1.trans ht.1, h2.trans ht.2⟩)
    l s ⟨rfl, rfl⟩
  exact this

/-- **C6 counterexample.** With dividend `[0,5]` and divisor `[0,7]` (equal
lengths, both leading coefficients nonzero, so equal degrees and the claim's
"otherwise" branch applies), `_div_poly` takes its early-return branch because
it compares the leading bytes as integers (`5 < 7`), returning the dividend as
remainder: the remainder has length 2, not `|divisor| - 1 = 1`. -/
theorem C6_divPoly_counterexample :
    ([0, 7] : List Nat) ≠ [] ∧ ([0, 7] : List Nat).getD 1 0 ≠ 0 ∧
    ¬(([0, 5] : List Nat).length < ([0, 7] : List Nat).length) ∧
    divPoly [0, 5] [0, 7] = some ([0], [0, 5]) ∧
    ([0, 5] : List Nat).length ≠ ([0, 7] : List Nat).length - 1 := by
  refine ⟨by decide, by decide, by decide, ?_, by decide⟩
  rfl

/-- **C6 (amended).** Under the preconditions (nonempty divisor, nonzero
leading coefficient): if the dividend is shorter than the divisor, or of
equal length with its leading byte smaller than the divisor's as an integer,
the quotient is `[0]` and the remainder is the dividend; otherwise the
quotient has length `|dividend| - |divisor| + 1` and the remainder either is
the normalized `[0]` or has length `|divisor| - 1`. -/
theorem C6_divPoly_amended (dividend divisor : List Nat)
    (hne : divisor ≠ []) (hlead : divisor.getD (divisor.length - 1) 0 ≠ 0) :
    ((dividend.length < divisor.length ∨
        (dividend.length = divisor.length ∧
          dividend.getD (dividend.length - 1) 0 < divisor.getD (divisor.length - 1) 0)) →
      divPoly dividend divisor = some ([0], dividend)) ∧
    (¬(dividend.length < divisor.length ∨
        (dividend.length = divisor.length ∧
          dividend.getD (dividend.length - 1) 0 < divisor.getD (divisor.length - 1) 0)) →
      ∃ q r, divPoly dividend divisor = some (q, r) ∧
        q.length = dividend.length - divisor.length + 1 ∧
        (r = [0] ∨ r.length = divisor.length - 1)) := by
  have hempty : divisor.isEmpty = false := by
    cases divisor with
    | nil => exact absurd rfl hne
    | cons x xs => rfl
  constructor
  · intro hcond
    unfold divPoly
    rw [hempty]
    simp only [Bool.false_eq_true, if_false]
    rw [if_neg hlead, if_pos hcond]
  · intro hcond
    unfold divPoly
    rw [hempty]
    simp only [Bool.false_eq_true, if_false]
    rw [if_neg hlead, if_neg hcond]
    have hlen : divisor.length ≤ dividend.length := by
      push_neg at hcond
      omega
    set qlen := dividend.length - divisor.length + 1 with hq
    set qr := (List.range qlen).foldl
      (divStep divisor (divisor.getD (divisor.length - 1) 0) qlen)
      (List.replicate qlen 0, dividend) with hqr
    have hlens := divLoop_lengths divisor (divisor.getD (divisor.length - 1) 0) qlen
      (List.range qlen) (List.replicate qlen 0, dividend)
    refine ⟨qr.1, _, rfl, ?_, ?_⟩
    · rw [← hqr] at hlens
      rw [hlens.1, List.length_replicate]
    · set act := qr.2.take (divisor.length - 1) with hact
      by_cases hz : act.isEmpty ∨ act.all (· == 0)
      · rw [if_pos hz]
        left
        rfl
      · rw [if_neg hz]
        right
        rw [hact, List.length_take]
        rw [← hqr] at hlens
        rw [hlens.2]
        have hdl : ((List.replicate qlen 0, dividend).2).length = dividend.length := rfl
        rw [hdl]
        have h1 : 1 ≤ divisor.length := by
          cases divisor with
          | nil => exact absurd rfl hne
          | cons x xs => simp
        omega

theorem C6_divPoly_amended_witness :
    ((([4, 3, 2, 1] : List Nat).length < ([1, 1] : List Nat).length ∨
        (([4, 3, 2, 1] : List Nat).length = ([1, 1] : List Nat).length ∧
          ([4, 3, 2, 1] : List Nat).getD (([4, 3, 2, 1] : List Nat).length - 1) 0 <
            ([1, 1] : List Nat).getD (([1, 1] : List Nat).length - 1) 0)) →
      divPoly [4, 3, 2, 1] [1, 1] = some ([0], [4, 3, 2, 1])) ∧
    (¬(([4, 3, 2, 1] : List Nat).length < ([1, 1] : List Nat).length ∨
        (([4, 3, 2, 1] : List Nat).length = ([1, 1] : List Nat).length ∧
          ([4, 3, 2, 1] : List Nat).getD (([4, 3, 2, 1] : List Nat).length - 1) 0 <
            ([1, 1] : List Nat).getD (([1, 1] : List Nat).length - 1) 0)) →
      ∃ q r, divPoly [4, 3, 2, 1] [1, 1] = some (q, r) ∧
        q.length = ([4, 3, 2, 1] : List Nat).length - ([1, 1] : List Nat).length + 1 ∧
        (r = [0] ∨ r.length = ([1, 1] : List Nat).length - 1)) :=
  C6_divPoly_amended [4, 3, 2, 1] [1, 1] (by decide) (by decide)

/-! ### XOR-sum toolkit for evaluating the polynomial operations -/

/-- All entries (and the out-of-range default) are bytes. -/
def Bytes (l : List Nat) : Prop := ∀ i, l.getD i 0 < 256

def xorSum (n : Nat) (f : Nat → Nat) : Nat :=
  (List.range n).foldl (fun acc i => acc ^^^ f i) 0

theorem fastMul_lt_uncond (a b : Nat) : fastMul a b < 256 := by
  unfold fastMul
  split
  · norm_num
  · rw [gexp_eq_B _ (lt_of_lt_of_le (Nat.mod_lt _ (by norm_num)) (by norm_num))]
    exact gexpB_lt _

theorem evalPoly_eq_xorSum (p : List Nat) (x : Nat) :
    evalPoly p x = xorSum p.length (fun i => fastMul (p.getD i 0) (fastPow x (i % 256))) := by
  rfl

theorem xorSum_succ (n : Nat) (f : Nat → Nat) : xorSum (n + 1) f = xorSum n f ^^^ f n := by
  unfold xorSum
  rw [List.range_succ, List.foldl_append]
  rfl

theorem xorSum_congr {n : Nat} {f g : Nat → Nat} (h : ∀ i, i < n → f i = g i) :
    xorSum n f = xorSum n g := by
  induction n with
  | zero => rfl
  | succ k ih =>
    rw [xorSum_succ, xorSum_succ, ih (fun i hi => h i (by omega)), h k (by omega)]

theorem xorSum_zero_f {n : Nat} {f : Nat → Nat} (h : ∀ i, i < n → f i = 0) :
    xorSum n f = 0 := by
  induction n with
  | zero => rfl
  | succ k ih =>
    rw [xorSum_succ, ih (fun i hi => h i (by omega)), h k (by omega)]
    rfl

theorem xorSum_ext {m n : Nat} {f : Nat → Nat} (hmn : m ≤ n)
    (h : ∀ i, m ≤ i → i < n → f i = 0) : xorSum n f = xorSum m f := by
  obtain ⟨k, rfl⟩ : ∃ k, n = m + k := ⟨n - m, by omega⟩
  clear hmn
  induction k with
  | zero => rfl
  | succ j ih =>
    rw [show m + (j + 1) = (m + j) + 1 by ring, xorSum_succ,
      ih (fun i h1 h2 => h i h1 (by omega)), h (m + j) (by omega) (by omega),
      Nat.xor_zero]

theorem xorSum_add (n : Nat) (f g : Nat → Nat) :
    xorSum n (fun i => f i ^^^ g i) = xorSum n f ^^^ xorSum n g := by
  induction n with
  | zero => simp [xorSum]
  | succ k ih =>
    rw [xorSum_succ, xorSum_succ, xorSum_succ, ih]
    simp [Nat.xor_assoc, Nat.xor_comm, xor_left_comm]

theorem xorSum_lt {n : Nat} {f : Nat → Nat} (h : ∀ i, i < n → f i < 256) :
    xorSum n f < 256 := by
  induction n with
  | zero => norm_num [xorSum]
  | succ k ih =>
    rw [xorSum_succ]
    exact xor_lt_256 (ih (fun i hi => h i (by omega))) (h k (by omega))

theorem xorSum_mul {n s : Nat} {f : Nat → Nat} (hs : s < 256)
    (h : ∀ i, i < n → f i < 256) :
    xorSum n (fun i => fastMul s (f i)) = fastMul s (xorSum n f) := by
  induction n with
  | zero =>
    show (0 : Nat) = fastMul s 0
    rw [fastMul_zero_right]
  | succ k ih =>
    have hf : ∀ i, i < k → f i < 256 := fun i hi => h i (Nat.lt_succ_of_lt hi)
    have hk : f k < 256 := h k (Nat.lt_succ_self k)
    rw [xorSum_succ, xorSum_succ, ih hf]
    have hd := mulDistribH hs (xorSum_lt hf) hk
    rw [gadd] at hd
    exact hd.symm

theorem xorSum_update {n m : Nat} {f g : Nat → Nat} (hm : m < n)
    (h : ∀ i, i < n → i ≠ m → f i = g i) :
    xorSum n g = xorSum n f ^^^ f m ^^^ g m := by
  induction n with
  | zero => omega
  | succ k ih =>
    rw [xorSum_succ, xorSum_succ]
    by_cases hk : m = k
    · subst hk
      rw [xorSum_congr (fun i hi => (h i (by omega) (by omega)).symm)]
      rw [Nat.xor_assoc (xorSum m f) (f m) (f m), Nat.xor_self, Nat.xor_zero]
    · rw [ih (by omega) (fun i hi hm2 => h i (by omega) hm2),
        h k (by omega) (fun hh => hk hh.symm)]
      simp [Nat.xor_assoc, Nat.xor_comm, xor_left_comm]

theorem getD_range_map (n : Nat) (f : Nat → Nat) (i : Nat) (h : i < n) :
    ((List.range n).map f).getD i 0 = f i := by
  rw [List.getD_eq_getElem?_getD, List.getElem?_map, List.getElem?_range h]
  rfl

theorem getD_oob {l : List Nat} {i : Nat} (h : l.length ≤ i) : l.getD i 0 = 0 := by
  rw [List.getD_eq_getElem?_getD, List.getElem?_eq_none h]
  rfl

theorem foldl_range_succ {α : Type} (f : α → Nat → α) (acc : α) (n : Nat) :
    (List.range (n + 1)).foldl f acc = f ((List.range n).foldl f acc) n := by
  rw [List.range_succ, List.foldl_append]
  rfl

theorem list_ext_getD {l1 l2 : List Nat} (hlen : l1.length = l2.length)
    (h : ∀ i, i < l1.length → l1.getD i 0 = l2.getD i 0) : l1 = l2 := by
  apply List.ext_getElem hlen
  intro i h1 h2
  have := h i h1
  rwa [List.getD_eq_getElem l1 0 h1, List.getD_eq_getElem l2 0 h2] at this

theorem xorSum_shift {k n : Nat} {f : Nat → Nat} (h : ∀ i, i < k → f i = 0) :
    xorSum (k + n) f = xorSum n (fun j => f (k + j)) := by
  induction n with
  | zero => exact xorSum_zero_f h
  | succ j ih =>
    rw [show k + (j + 1) = (k + j) + 1 by ring, xorSum_succ, xorSum_succ, ih]

theorem addPoly_length (a b : List Nat) :
    (addPoly a b).length = max a.length b.length := by
  simp [addPoly]

theorem addPoly_getD {a b : List Nat} {i : Nat} (h : i < max a.length b.length) :
    (addPoly a b).getD i 0 = a.getD i 0 ^^^ b.getD i 0 :=
  getD_range_map _ _ _ h

theorem scalePoly_length (p : List Nat) (s : Nat) : (scalePoly p s).length = p.length := by
  simp [scalePoly]

theorem scalePoly_getD {p : List Nat} {s i : Nat} (h : i < p.length) :
    (scalePoly p s).getD i 0 = fastMul (p.getD i 0) s := by
  unfold scalePoly
  rw [List.getD_eq_getElem?_getD, List.getElem?_map, List.getElem?_eq_getElem h,
    List.getD_eq_getElem p 0 h]
  rfl

theorem shiftPoly_length (p : List Nat) (k : Nat) :
    (shiftPoly p k).length = k + p.length := by
  simp [shiftPoly]

theorem shiftPoly_getD_lo {p : List Nat} {k i : Nat} (h : i < k) :
    (shiftPoly p k).getD i 0 = 0 := by
  unfold shiftPoly
  rw [List.getD_eq_getElem?_getD, List.getElem?_append_left (by simp; omega),
    List.getElem?_replicate]
  simp [h]

theorem shiftPoly_getD_hi (p : List Nat) (k j : Nat) :
    (shiftPoly p k).getD (k + j) 0 = p.getD j 0 := by
  unfold shiftPoly
  rw [List.getD_eq_getElem?_getD, List.getD_eq_getElem?_getD,
    List.getElem?_append_right (by simp)]
  simp

theorem Bytes_nil : Bytes [] := by
  intro i
  norm_num [List.getD]

theorem Bytes_addPoly {a b : List Nat} (ha : Bytes a) (hb : Bytes b) :
    Bytes (addPoly a b) := by
  intro i
  by_cases h : i < max a.length b.length
  · rw [addPoly_getD h]
    exact xor_lt_256 (ha i) (hb i)
  · rw [getD_oob (by rw [addPoly_length]; omega)]
    norm_num

theorem Bytes_scalePoly {p : List Nat} (s : Nat) : Bytes (scalePoly p s) := by
  intro i
  by_cases h : i < p.length
  · rw [scalePoly_getD h]
    exact fastMul_lt_uncond _ _
  · rw [getD_oob (by rw [scalePoly_length]; omega)]
    norm_num

theorem Bytes_shiftPoly {p : List Nat} (hp : Bytes p) (k : Nat) :
    Bytes (shiftPoly p k) := by
  intro i
  by_cases h : i < k
  · rw [shiftPoly_getD_lo h]
    norm_num
  · obtain ⟨j, rfl⟩ : ∃ j, i = k + j := ⟨i - k, by omega⟩
    rw [shiftPoly_getD_hi]
    exact hp j

theorem Bytes_replicate (n : Nat) : Bytes (List.replicate n 0) := by
  intro i
  by_cases h : i < n
  · rw [List.getD_eq_getElem?_getD, List.getElem?_replicate]
    simp [h]
  · rw [getD_oob (by simp; omega)]
    norm_num

theorem getD_set_eq {l : List Nat} {i : Nat} (v : Nat) (h : i < l.length) :
    (l.set i v).getD i 0 = v := by
  rw [List.getD_eq_getElem?_getD, List.getElem?_set_self (by simpa)]
  rfl

theorem getD_set_ne {l : List Nat} {i j : Nat} (v : Nat) (h : i ≠ j) :
    (l.set i v).getD j 0 = l.getD j 0 := by
  rw [List.getD_eq_getElem?_getD, List.getElem?_set_ne h, ← List.getD_eq_getElem?_getD]

theorem Bytes_set {l : List Nat} {v : Nat} (hl : Bytes l) (hv : v < 256) (i : Nat) :
    Bytes (l.set i v) := by
  intro j
  by_cases h : i = j
  · subst h
    by_cases hi : i < l.length
    · rw [getD_set_eq v hi]
      exact hv
    · rw [List.set_eq_of_length_le (by omega)]
      exact hl i
  · rw [getD_set_ne v h]
    exact hl j

theorem evalPoly_lt (p : List Nat) (x : Nat) : evalPoly p x < 256 := by
  rw [evalPoly_eq_xorSum]
  exact xorSum_lt (fun i _ => fastMul_lt_uncond _ _)

theorem mulDistribRightH {a b c : Nat} (ha : a < 256) (hb : b < 256) (hc : c < 256) :
    fastMul (gadd a b) c = gadd (fastMul a c) (fastMul b c) := by
  simp only [gadd]
  rw [mulCommH (xor_lt_256 ha hb) hc]
  have hd := mulDistribH hc ha hb
  simp only [gadd] at hd
  rw [hd, mulCommH hc ha, mulCommH hc hb]

theorem evalPoly_addPoly {a b : List Nat} {x : Nat} (ha : Bytes a) (hb : Bytes b) :
    evalPoly (addPoly a b) x = evalPoly a x ^^^ evalPoly b x := by
  rw [evalPoly_eq_xorSum, evalPoly_eq_xorSum, evalPoly_eq_xorSum, addPoly_length]
  rw [xorSum_congr (g := fun i =>
      fastMul (a.getD i 0) (fastPow x (i % 256)) ^^^
      fastMul (b.getD i 0) (fastPow x (i % 256)))
    (fun i hi => by
      rw [addPoly_getD hi]
      exact mulDistribRightH (ha i) (hb i) (fastPow_lt x _))]
  rw [xorSum_add]
  congr 1
  · exact xorSum_ext (Nat.le_max_left _ _)
      (fun i h1 _ => by rw [getD_oob h1, fastMul_zero_left])
  · exact xorSum_ext (Nat.le_max_right _ _)
      (fun i h1 _ => by rw [getD_oob h1, fastMul_zero_left])

theorem evalPoly_scalePoly {p : List Nat} {s x : Nat} (hp : Bytes p) (hs : s < 256) :
    evalPoly (scalePoly p s) x = fastMul s (evalPoly p x) := by
  rw [evalPoly_eq_xorSum, evalPoly_eq_xorSum, scalePoly_length]
  rw [xorSum_congr (g := fun i =>
      fastMul s (fastMul (p.getD i 0) (fastPow x (i % 256))))
    (fun i hi => by
      rw [scalePoly_getD hi, mulCommH (hp i) hs, mulAssocH hs (hp i) (fastPow_lt x _)])]
  exact xorSum_mul hs (fun i _ => fastMul_lt_uncond _ _)

theorem evalPoly_shiftPoly {p : List Nat} {k x : Nat} (hp : Bytes p) (hx : x < 256)
    (hlen : k + p.length ≤ 256) :
    evalPoly (shiftPoly p k) x = fastMul (fastPow x k) (evalPoly p x) := by
  rw [evalPoly_eq_xorSum, evalPoly_eq_xorSum, shiftPoly_length]
  rw [xorSum_shift (fun i hi => by rw [shiftPoly_getD_lo hi, fastMul_zero_left])]
  rw [xorSum_congr (g := fun j =>
      fastMul (fastPow x k) (fastMul (p.getD j 0) (fastPow x (j % 256))))
    (fun j hj => by
      rw [shiftPoly_getD_hi]
      show fastMul (p.getD j 0) (fastPow x ((k + j) % 256)) =
        fastMul (fastPow x k) (fastMul (p.getD j 0) (fastPow x (j % 256)))
      have h1 : (k + j) % 256 = k + j := Nat.mod_eq_of_lt (by omega)
      have h2 : j % 256 = j := Nat.mod_eq_of_lt (by omega)
      rw [h1, h2, fastPow_add hx k j, mulCommH (hp j) (fastMul_lt_uncond _ _),
        mulAssocH (fastPow_lt x k) (fastPow_lt x j) (hp j),
        mulCommH (fastPow_lt x j) (hp j)])]
  exact xorSum_mul (fastPow_lt x k) (fun i _ => fastMul_lt_uncond _ _)

theorem mulPoly_length (a b : List Nat) :
    (mulPoly a b).length = a.length + b.length - 1 := by
  unfold mulPoly
  exact foldl_invariant (fun r : List Nat => r.length = a.length + b.length - 1)
    (fun res i => (List.range b.length).foldl (fun res j =>
      res.set (i + j) (gadd (res.getD (i + j) 0) (fastMul (a.getD i 0) (b.getD j 0)))) res)
    (fun res i hres =>
      foldl_invariant (fun r : List Nat => r.length = a.length + b.length - 1)
        _ (fun r j hr => by simp only [List.length_set]; exact hr) _ res hres)
    (List.range a.length) _ (by simp only [List.length_replicate])

theorem Bytes_mulPoly (a b : List Nat) : Bytes (mulPoly a b) := by
  unfold mulPoly
  exact foldl_invariant Bytes _
    (fun res i hres =>
      foldl_invariant Bytes _
        (fun r j hr =>
          Bytes_set hr (xor_lt_256 (hr _) (fastMul_lt_uncond _ _)) _) _ res hres)
    (List.range a.length) _ (Bytes_replicate _)

theorem mulPoly_single (g : List Nat) (s : Nat) : mulPoly g [s] = scalePoly g s := by
  have key : ∀ m, m ≤ g.length →
      ((List.range m).foldl (fun res i => (List.range 1).foldl (fun res j =>
          res.set (i + j)
            (gadd (res.getD (i + j) 0) (fastMul (g.getD i 0) (([s] : List Nat).getD j 0))))
          res)
        (List.replicate (g.length + 1 - 1) 0)).length = g.length ∧
      (∀ i, i < m →
        ((List.range m).foldl (fun res i => (List.range 1).foldl (fun res j =>
            res.set (i + j)
              (gadd (res.getD (i + j) 0) (fastMul (g.getD i 0) (([s] : List Nat).getD j 0))))
            res)
          (List.replicate (g.length + 1 - 1) 0)).getD i 0 = fastMul (g.getD i 0) s) ∧
      (∀ i, m ≤ i →
        ((List.range m).foldl (fun res i => (List.range 1).foldl (fun res j =>
            res.set (i + j)
              (gadd (res.getD (i + j) 0) (fastMul (g.getD i 0) (([s] : List Nat).getD j 0))))
            res)
          (List.replicate (g.length + 1 - 1) 0)).getD i 0 = 0) := by
    intro m
    induction m with
    | zero =>
      intro _
      simp only [List.range_zero, List.foldl_nil]
      refine ⟨by simp, fun i hi => by omega, fun i _ => ?_⟩
      by_cases h : i < g.length + 1 - 1
      · rw [List.getD_eq_getElem?_getD, List.getElem?_replicate]
        have h2 : i < g.length := by omega
        simp [h2]
      · exact getD_oob (by simp; omega)
    | succ m ih =>
      intro hm
      obtain ⟨hlen, hlo, hhi⟩ := ih (by omega)
      rw [foldl_range_succ]
      set res := (List.range m).foldl _ (List.replicate (g.length + 1 - 1) 0) with hres
      have hit : (List.range 1).foldl (fun r j =>
          r.set (m + j)
            (gadd (r.getD (m + j) 0) (fastMul (g.getD m 0) (([s] : List Nat).getD j 0))))
          res =
          res.set m (gadd (res.getD m 0) (fastMul (g.getD m 0) s)) := by
        show res.set (m + 0) (gadd (res.getD (m + 0) 0)
          (fastMul (g.getD m 0) (([s] : List Nat).getD 0 0))) = _
        rfl
      rw [hit, hhi m (le_refl m)]
      have hval : gadd 0 (fastMul (g.getD m 0) s) = fastMul (g.getD m 0) s :=
        Nat.zero_xor _
      rw [hval]
      refine ⟨by rw [List.length_set]; exact hlen, ?_, ?_⟩
      · intro i hi
        by_cases h : i = m
        · subst h
          exact getD_set_eq _ (by omega)
        · rw [getD_set_ne _ (fun hh => h hh.symm)]
          exact hlo i (by omega)
      · intro i hi
        rw [getD_set_ne _ (by omega)]
        exact hhi i (by omega)
  obtain ⟨hlen, hlo, _⟩ := key g.length (le_refl _)
  apply list_ext_getD
  · rw [mulPoly_length]
    simp [scalePoly_length]
  · intro i hi
    rw [mulPoly_length] at hi
    simp only [List.length_singleton] at hi
    have hi2 : i < g.length := by omega
    unfold mulPoly
    simp only [List.length_singleton]
    rw [hlo i hi2, scalePoly_getD hi2]

theorem glogB_two : glogB 2 = 1 := by decide!

theorem alphaPow_eq_E (n : Nat) : alphaPow n = E n := by
  unfold alphaPow fastPow
  by_cases hn : n = 0
  · subst hn
    rw [if_pos rfl, E_zero]
  · rw [if_neg hn, if_neg (by norm_num), glog_eq_B 2 (by norm_num), glogB_two,
      Nat.one_mul, gexp_eq_B _ (lt_of_lt_of_le (Nat.mod_lt _ (by norm_num)) (by norm_num))]
    rfl

theorem alphaPow_lt (n : Nat) : alphaPow n < 256 := fastPow_lt 2 n

theorem alphaPow_ne_zero (n : Nat) : alphaPow n ≠ 0 := by
  rw [alphaPow_eq_E]
  exact E_ne n

theorem fastPow_one {x : Nat} (hx : x < 256) : fastPow x 1 = x := by
  by_cases h0 : x = 0
  · subst h0
    rfl
  · rw [fastPow_eq_E hx h0 (by norm_num), Nat.mul_one, exp_log x hx h0]

theorem evalPoly_singleton {c : Nat} (hc : c < 256) (x : Nat) : evalPoly [c] x = c := by
  show (0 : Nat) ^^^ fastMul (([c] : List Nat).getD 0 0) (fastPow x (0 % 256)) = c
  rw [Nat.zero_xor]
  show fastMul c (fastPow x 0) = c
  rw [fastPow_zero, mulOneH hc]

theorem buildGenPoly_succ (p : Nat) : buildGenPoly (p + 1) =
    addPoly (mulPoly (buildGenPoly p) [alphaPow (p % 256)])
      (shiftPoly (buildGenPoly p) 1) := by
  unfold buildGenPoly
  rw [foldl_range_succ]

theorem buildGenPoly_length (p : Nat) : (buildGenPoly p).length = p + 1 := by
  induction p with
  | zero => rfl
  | succ p ih =>
    rw [buildGenPoly_succ, addPoly_length, mulPoly_single, scalePoly_length,
      shiftPoly_length, ih]
    omega

theorem Bytes_singleton {c : Nat} (hc : c < 256) : Bytes [c] := by
  intro i
  cases i with
  | zero => exact hc
  | succ j =>
    rw [getD_oob (by simp)]
    norm_num

theorem Bytes_buildGenPoly (p : Nat) : Bytes (buildGenPoly p) := by
  induction p with
  | zero => exact Bytes_singleton (by norm_num)
  | succ p ih =>
    rw [buildGenPoly_succ, mulPoly_single]
    exact Bytes_addPoly (Bytes_scalePoly _) (Bytes_shiftPoly ih 1)

theorem buildGenPoly_lead (p : Nat) : (buildGenPoly p).getD p 0 = 1 := by
  induction p with
  | zero => rfl
  | succ p ih =>
    rw [buildGenPoly_succ, addPoly_getD (by
      rw [mulPoly_single, scalePoly_length, shiftPoly_length, buildGenPoly_length]
      omega)]
    rw [mulPoly_single, getD_oob (by rw [scalePoly_length, buildGenPoly_length])]
    rw [show p + 1 = 1 + p by ring, shiftPoly_getD_hi, ih]
    exact Nat.zero_xor 1

theorem evalPoly_buildGenPoly_succ {p x : Nat} (hx : x < 256) (hp : p + 2 ≤ 256) :
    evalPoly (buildGenPoly (p + 1)) x =
      fastMul (gadd (alphaPow (p % 256)) x) (evalPoly (buildGenPoly p) x) := by
  rw [buildGenPoly_succ, mulPoly_single,
    evalPoly_addPoly (Bytes_scalePoly _) (Bytes_shiftPoly (Bytes_buildGenPoly p) 1),
    evalPoly_scalePoly (Bytes_buildGenPoly p) (alphaPow_lt _),
    evalPoly_shiftPoly (Bytes_buildGenPoly p) hx (by rw [buildGenPoly_length]; omega),
    fastPow_one hx]
  have hd := mulDistribRightH (a := alphaPow (p % 256)) (b := x)
    (c := evalPoly (buildGenPoly p) x) (alphaPow_lt (p % 256)) hx (evalPoly_lt _ _)
  simp only [gadd] at hd
  simp only [gadd]
  exact hd.symm

theorem buildGenPoly_root : ∀ p, p ≤ 255 → ∀ i, i < p →
    evalPoly (buildGenPoly p) (alphaPow i) = 0 := by
  intro p
  induction p with
  | zero => intro _ i hi; omega
  | succ p ih =>
    intro hp i hi
    rw [evalPoly_buildGenPoly_succ (alphaPow_lt i) (by omega)]
    by_cases h : i < p
    · rw [ih (by omega) i h, fastMul_zero_right]
    · have hip : i = p := by omega
      subst hip
      have hmod : i % 256 = i := Nat.mod_eq_of_lt (by omega)
      rw [hmod, gadd, Nat.xor_self, fastMul_zero_left]

theorem buildGenPoly_nonroot : ∀ p, p ≤ 255 → ∀ t, t < 255 → (∀ j, j < p → t ≠ j) →
    evalPoly (buildGenPoly p) (alphaPow t) ≠ 0 := by
  intro p
  induction p with
  | zero =>
    intro _ t _ _
    rw [show buildGenPoly 0 = [1] from rfl, evalPoly_singleton (by norm_num)]
    norm_num
  | succ p ih =>
    intro hp t ht hj
    rw [evalPoly_buildGenPoly_succ (alphaPow_lt t) (by omega)]
    have hmod : p % 256 = p := Nat.mod_eq_of_lt (by omega)
    rw [hmod]
    have hne : alphaPow p ≠ alphaPow t := by
      rw [alphaPow_eq_E, alphaPow_eq_E]
      intro hEq
      have h1 := log_exp p
      have h2 := log_exp t
      rw [hEq] at h1
      have : p % 255 = t % 255 := by omega
      have hpt : p = t := by omega
      exact hj p (by omega) hpt.symm
    have hfac : gadd (alphaPow p) (alphaPow t) ≠ 0 := by
      rw [gadd]
      intro hz
      exact hne (Nat.xor_eq_zero.mp hz)
    intro hz
    rcases (fastMul_zero_iff (xor_lt_256 (alphaPow_lt p) (alphaPow_lt t))
      (evalPoly_lt _ _)).mp hz with h | h
    · exact hfac h
    · exact ih (by omega) t ht (fun j hjp => hj j (by omega)) h

/-- **C8.** For each parity count `p ∈ [1,32]`, the generator polynomial has
length `p+1`, leading coefficient 1, evaluates to 0 at `α^i` for `i ∈ [0,p)`,
and is nonzero at `α^p` (both implementations build it identically). -/
theorem C8_gen_poly (p : Nat) (h1 : 1 ≤ p) (h2 : p ≤ 32) :
    (buildGenPoly p).length = p + 1 ∧
    (buildGenPoly p).getD p 0 = 1 ∧
    (∀ i, i < p → evalPoly (buildGenPoly p) (alphaPow i) = 0) ∧
    evalPoly (buildGenPoly p) (alphaPow p) ≠ 0 :=
  ⟨buildGenPoly_length p, buildGenPoly_lead p,
    fun i hi => buildGenPoly_root p (by omega) i hi,
    buildGenPoly_nonroot p (by omega) p (by omega) (fun j hj => by omega)⟩

theorem C8_gen_poly_witness :
    (buildGenPoly 4).length = 4 + 1 ∧
    (buildGenPoly 4).getD 4 0 = 1 ∧
    (∀ i, i < 4 → evalPoly (buildGenPoly 4) (alphaPow i) = 0) ∧
    evalPoly (buildGenPoly 4) (alphaPow 4) ≠ 0 :=
  C8_gen_poly 4 (by norm_num) (by norm_num)

/-! ### Further helpers for the encoder proof -/

theorem evalPoly_set {l : List Nat} {m v : Nat} (x : Nat) (hm : m < l.length) :
    evalPoly (l.set m v) x =
      evalPoly l x ^^^ fastMul (l.getD m 0) (fastPow x (m % 256)) ^^^
        fastMul v (fastPow x (m % 256)) := by
  rw [evalPoly_eq_xorSum, evalPoly_eq_xorSum, List.length_set]
  exact xorSum_update hm (fun i hi hne => by rw [getD_set_ne _ (fun hh => hne hh.symm)])
    |>.trans (by rw [getD_set_eq _ hm])

theorem evalPoly_zero_of_zero {l : List Nat} (h : ∀ i, l.getD i 0 = 0) (x : Nat) :
    evalPoly l x = 0 := by
  rw [evalPoly_eq_xorSum]
  exact xorSum_zero_f (fun i _ => by rw [h i, fastMul_zero_left])

theorem getD_take {l : List Nat} {t i : Nat} (h : i < t) :
    (l.take t).getD i 0 = l.getD i 0 := by
  rw [List.getD_eq_getElem?_getD, List.getD_eq_getElem?_getD, List.getElem?_take,
    if_pos h]

theorem evalPoly_eq_take {l : List Nat} {t : Nat} (x : Nat)
    (h : ∀ i, t ≤ i → l.getD i 0 = 0) (ht : t ≤ l.length) :
    evalPoly l x = evalPoly (l.take t) x := by
  rw [evalPoly_eq_xorSum, evalPoly_eq_xorSum, List.length_take,
    Nat.min_eq_left ht]
  rw [xorSum_ext ht (fun i h1 _ => by rw [h i h1, fastMul_zero_left])]
  exact xorSum_congr (fun i hi => by rw [getD_take hi])

theorem mulDivCancel {a L : Nat} (ha : a < 256) (hL : L < 256) (h0 : L ≠ 0) :
    fastMul (fastDivT a L) L = a := by
  by_cases h : a = 0
  · subst h
    show fastMul (if (0:Nat) = 0 then 0 else _) L = 0
    rw [if_pos rfl, fastMul_zero_left]
  · rw [fastDivT_eq_E ha h hL, fastMul_eq_E (E_lt _) (E_ne _) hL h0]
    have ht := log_exp (glogB a + 255 - glogB L)
    have hla := glogB_lt a
    have hlL := glogB_lt L
    rw [show E (glogB (E (glogB a + 255 - glogB L)) + glogB L) = E (glogB a) from
      E_congr (by omega)]
    exact exp_log a ha h

theorem getD_drop (l : List Nat) (p j : Nat) :
    (l.drop p).getD j 0 = l.getD (p + j) 0 := by
  rw [List.getD_eq_getElem?_getD, List.getD_eq_getElem?_getD, List.getElem?_drop]

theorem fastDivT_lt (a b : Nat) : fastDivT a b < 256 := by
  unfold fastDivT
  split
  · norm_num
  · rw [gexp_eq_B _ (lt_of_lt_of_le (Nat.mod_lt _ (by norm_num)) (by norm_num))]
    exact gexpB_lt _

theorem innerFold_spec (G : List Nat) (coef i n : Nat) (rem : List Nat)
    (hrem : rem.length = n) (hidl : G.length + i ≤ n) :
    ∀ m, m ≤ G.length →
      ((List.range m).foldl (subStep G coef i) rem).length = n ∧
      ∀ idx, ((List.range m).foldl (subStep G coef i) rem).getD idx 0 =
        if n - i - m ≤ idx ∧ idx + i + 1 ≤ n then
          rem.getD idx 0 ^^^ fastMul coef (G.getD (idx - (n - i - G.length)) 0)
        else rem.getD idx 0 := by
  intro m
  induction m with
  | zero =>
    intro _
    refine ⟨hrem, fun idx => ?_⟩
    rw [if_neg (by omega)]
    rfl
  | succ m ih =>
    intro hm
    obtain ⟨hlen, hget⟩ := ih (by omega)
    rw [foldl_range_succ]
    set r := (List.range m).foldl (subStep G coef i) rem with hr
    unfold subStep
    by_cases hGc : G.getD (G.length - m - 1) 0 ≠ 0
    · rw [if_pos hGc]
      have hpos : r.length - i - m - 1 = n - i - m - 1 := by rw [hlen]
      have hposlt : r.length - i - m - 1 < r.length := by omega
      refine ⟨by rw [List.length_set]; exact hlen, fun idx => ?_⟩
      by_cases hidx : idx = n - i - m - 1
      · subst hidx
        rw [← hpos, getD_set_eq _ hposlt, hpos]
        rw [hget (n - i - m - 1), if_neg (by omega)]
        rw [if_pos (by omega)]
        have hGidx : G.length - m - 1 = n - i - m - 1 - (n - i - G.length) := by omega
        rw [hGidx]
        rfl
      · rw [getD_set_ne _ (by omega), hget idx]
        by_cases hwin : n - i - m ≤ idx ∧ idx + i + 1 ≤ n
        · rw [if_pos hwin, if_pos (by omega)]
        · rw [if_neg hwin, if_neg (by omega)]
    · rw [if_neg hGc]
      push_neg at hGc
      refine ⟨hlen, fun idx => ?_⟩
      rw [hget idx]
      by_cases hidx : idx = n - i - m - 1
      · subst hidx
        rw [if_neg (by omega), if_pos (by omega)]
        have hGidx : n - i - m - 1 - (n - i - G.length) = G.length - m - 1 := by omega
        rw [hGidx, hGc, fastMul_zero_right, Nat.xor_zero]
      · by_cases hwin : n - i - m ≤ idx ∧ idx + i + 1 ≤ n
        · rw [if_pos hwin, if_pos (by omega)]
        · rw [if_neg hwin, if_neg (by omega)]

theorem innerFold_eq_addPoly (G : List Nat) (hG : Bytes G) {coef : Nat}
    (hcoef : coef < 256) (i n : Nat) (rem : List Nat) (hrem : rem.length = n)
    (_hBrem : Bytes rem) (hidl : G.length + i ≤ n) (_hg1 : 1 ≤ G.length) :
    (List.range G.length).foldl (subStep G coef i) rem =
      addPoly rem (shiftPoly (scalePoly G coef) (n - i - G.length)) := by
  obtain ⟨hlen, hget⟩ := innerFold_spec G coef i n rem hrem hidl G.length (le_refl _)
  have hshiftlen : (shiftPoly (scalePoly G coef) (n - i - G.length)).length = n - i := by
    rw [shiftPoly_length, scalePoly_length]
    omega
  apply list_ext_getD
  · rw [hlen, addPoly_length, hshiftlen, hrem]
    omega
  · intro idx hidx
    rw [hlen] at hidx
    rw [hget idx, addPoly_getD (by rw [hshiftlen, hrem]; omega)]
    by_cases hwin : n - i - G.length ≤ idx ∧ idx + i + 1 ≤ n
    · rw [if_pos hwin]
      obtain ⟨j, hj⟩ : ∃ j, idx = (n - i - G.length) + j := ⟨idx - (n - i - G.length), by omega⟩
      subst hj
      rw [shiftPoly_getD_hi, scalePoly_getD (by omega)]
      congr 1
      have hji : (n - i - G.length) + j - (n - i - G.length) = j := by omega
      rw [hji, mulCommH hcoef (hG j)]
    · rw [if_neg hwin]
      by_cases hlo : idx < n - i - G.length
      · rw [shiftPoly_getD_lo hlo, Nat.xor_zero]
      · rw [getD_oob (l := shiftPoly (scalePoly G coef) (n - i - G.length))
          (by rw [hshiftlen]; omega), Nat.xor_zero]

theorem xor_cancel_middle (a b d : Nat) : (a ^^^ d) ^^^ (b ^^^ d) = a ^^^ b := by
  simp [Nat.xor_assoc, Nat.xor_comm, xor_left_comm]

theorem divStep_fst_pos (G : List Nat) (L qlen : Nat) {s : List Nat × List Nat} {k : Nat}
    (htop : s.2.getD (s.2.length - k - 1) 0 ≠ 0) :
    (divStep G L qlen s k).1 =
      s.1.set (qlen - k - 1) (fastDivT (s.2.getD (s.2.length - k - 1) 0) L) := by
  unfold divStep
  rw [if_pos htop]

theorem divStep_snd_pos (G : List Nat) (L qlen : Nat) {s : List Nat × List Nat} {k : Nat}
    (htop : s.2.getD (s.2.length - k - 1) 0 ≠ 0) :
    (divStep G L qlen s k).2 =
      (List.range G.length).foldl
        (subStep G (fastDivT (s.2.getD (s.2.length - k - 1) 0) L) k) s.2 := by
  unfold divStep
  rw [if_pos htop]

theorem divStep_neg {G : List Nat} {L qlen : Nat} {s : List Nat × List Nat} {k : Nat}
    (htop : ¬s.2.getD (s.2.length - k - 1) 0 ≠ 0) :
    divStep G L qlen s k = s := by
  unfold divStep
  rw [if_neg htop]

/-- Invariant of the outer long-division loop: lengths, byte bounds, the
already-zeroed top remainder coefficients, the still-zero quotient
coefficients, and the algebraic relation
`remainder + quotient * divisor = dividend` under evaluation. -/
theorem divLoop_spec (G D : List Nat) (hG : Bytes G) (hD : Bytes D)
    (hg1 : 1 ≤ G.length) (hlen : G.length ≤ D.length) (hn : D.length ≤ 256)
    (hL0 : G.getD (G.length - 1) 0 ≠ 0) :
    ∀ k, k ≤ D.length - G.length + 1 →
      ∀ s, s = (List.range k).foldl
          (divStep G (G.getD (G.length - 1) 0) (D.length - G.length + 1))
          (List.replicate (D.length - G.length + 1) 0, D) →
      s.1.length = D.length - G.length + 1 ∧
      s.2.length = D.length ∧
      Bytes s.1 ∧
      Bytes s.2 ∧
      (∀ j, j + k < D.length - G.length + 1 → s.1.getD j 0 = 0) ∧
      (∀ idx, D.length ≤ idx + k → idx < D.length → s.2.getD idx 0 = 0) ∧
      (∀ x, x < 256 →
        evalPoly s.2 x ^^^ fastMul (evalPoly s.1 x) (evalPoly G x) = evalPoly D x) := by
  intro k
  induction k with
  | zero =>
    intro _ s hsdef
    simp only [List.range_zero, List.foldl_nil] at hsdef
    subst hsdef
    refine ⟨by simp, rfl, Bytes_replicate _, hD, fun j _ => ?_, ?_, ?_⟩
    · show (List.replicate (D.length - G.length + 1) 0).getD j 0 = 0
      by_cases h : j < D.length - G.length + 1
      · rw [List.getD_eq_getElem?_getD, List.getElem?_replicate]
        simp [h]
      · exact getD_oob (by simp; omega)
    · intro idx h1 h2
      omega
    · intro x _
      show evalPoly D x ^^^
        fastMul (evalPoly (List.replicate (D.length - G.length + 1) 0) x) (evalPoly G x) =
        evalPoly D x
      rw [evalPoly_zero_of_zero (l := List.replicate (D.length - G.length + 1) 0) (fun i => by
        by_cases h : i < D.length - G.length + 1
        · rw [List.getD_eq_getElem?_getD, List.getElem?_replicate]
          simp [h]
        · exact getD_oob (by simp; omega)) x]
      rw [fastMul_zero_left, Nat.xor_zero]
  | succ k ih =>
    intro hk sNew hsNew
    set n := D.length with hn_def
    set dlen := G.length with hdlen_def
    set L := G.getD (dlen - 1) 0 with hL_def
    set qlen := n - dlen + 1 with hqlen_def
    set s := (List.range k).foldl (divStep G L qlen) (List.replicate qlen 0, D) with hs
    obtain ⟨hq1, hr1, hBq, hBr, hqz, hrz, hev⟩ := ih (by omega) s hs
    rw [foldl_range_succ, ← hs] at hsNew
    by_cases htop : s.2.getD (s.2.length - k - 1) 0 ≠ 0
    · have hfst := divStep_fst_pos G L qlen htop
      have hsnd := divStep_snd_pos G L qlen htop
      set coef := fastDivT (s.2.getD (s.2.length - k - 1) 0) L with hcoef_def
      have hcoefb : coef < 256 := fastDivT_lt _ _
      have htopn : s.2.length - k - 1 = n - k - 1 := by rw [hr1]
      have hidl : dlen + k ≤ n := by omega
      have hreq : (List.range dlen).foldl (subStep G coef k) s.2 =
          addPoly s.2 (shiftPoly (scalePoly G coef) (n - k - dlen)) :=
        innerFold_eq_addPoly G hG hcoefb k n s.2 hr1 hBr hidl hg1
      rw [hreq] at hsnd
      have hshiftlen : (shiftPoly (scalePoly G coef) (n - k - dlen)).length = n - k := by
        rw [shiftPoly_length, scalePoly_length]
        omega
      subst hsNew
      rw [hfst, hsnd]
      refine ⟨by rw [List.length_set]; exact hq1,
        by rw [addPoly_length, hshiftlen, hr1]; omega,
        Bytes_set hBq hcoefb _,
        Bytes_addPoly hBr (Bytes_shiftPoly (Bytes_scalePoly _) _),
        ?_, ?_, ?_⟩
      · intro j hj
        rw [getD_set_ne _ (by omega)]
        exact hqz j (by omega)
      · intro idx h1 h2
        rw [addPoly_getD (by rw [hshiftlen, hr1]; omega)]
        by_cases hcase : n ≤ idx + k
        · rw [hrz idx hcase h2, getD_oob (l := shiftPoly (scalePoly G coef) (n - k - dlen))
            (by rw [hshiftlen]; omega)]
          exact Nat.xor_zero 0
        · have hidx : idx = n - k - 1 := by omega
          subst hidx
          obtain ⟨j, hj⟩ : ∃ j, n - k - 1 = (n - k - dlen) + j := ⟨dlen - 1, by omega⟩
          rw [hj, shiftPoly_getD_hi, scalePoly_getD (by omega)]
          have hjd : j = dlen - 1 := by omega
          subst hjd
          rw [← hj, ← hL_def, mulCommH (hG _) hcoefb, ← htopn, hcoef_def,
            mulDivCancel (hBr _) (by rw [hL_def]; exact hG _) hL0]
          exact Nat.xor_self _
      · intro x hx
        rw [evalPoly_addPoly hBr (Bytes_shiftPoly (Bytes_scalePoly _) _),
          evalPoly_shiftPoly (Bytes_scalePoly _) hx (by rw [scalePoly_length]; omega),
          evalPoly_scalePoly hG hcoefb,
          evalPoly_set x (by rw [hq1]; omega)]
        rw [hqz (qlen - k - 1) (by omega), fastMul_zero_left, Nat.xor_zero]
        have hmod : (qlen - k - 1) % 256 = qlen - k - 1 := Nat.mod_eq_of_lt (by omega)
        rw [hmod]
        have hexp : qlen - k - 1 = n - k - dlen := by omega
        rw [hexp]
        have hD1 : fastMul (evalPoly s.1 x ^^^ fastMul coef (fastPow x (n - k - dlen)))
            (evalPoly G x) =
            fastMul (evalPoly s.1 x) (evalPoly G x) ^^^
              fastMul (fastMul coef (fastPow x (n - k - dlen))) (evalPoly G x) := by
          have hd := mulDistribRightH (a := evalPoly s.1 x)
            (b := fastMul coef (fastPow x (n - k - dlen))) (c := evalPoly G x)
            (evalPoly_lt _ _) (fastMul_lt_uncond _ _) (evalPoly_lt _ _)
          simp only [gadd] at hd
          exact hd
        rw [hD1]
        have hAC : fastMul (fastPow x (n - k - dlen)) (fastMul coef (evalPoly G x)) =
            fastMul (fastMul coef (fastPow x (n - k - dlen))) (evalPoly G x) := by
          rw [← mulAssocH (fastPow_lt _ _) hcoefb (evalPoly_lt _ _),
            mulCommH (fastPow_lt _ _) hcoefb]
        rw [hAC, xor_cancel_middle]
        exact hev x hx
    · rw [divStep_neg htop] at hsNew
      subst hsNew
      push_neg at htop
      refine ⟨hq1, hr1, hBq, hBr, fun j hj => hqz j (by omega), ?_, hev⟩
      intro idx h1 h2
      by_cases hcase : n ≤ idx + k
      · exact hrz idx hcase h2
      · have hidx : idx = n - k - 1 := by omega
        have heq : s.2.length - k - 1 = idx := by rw [hr1]; omega
        rw [← heq]
        exact htop

/-- `ReedSolomon::calculate_syndromes`: `S_i = data(α^i)` for `i < p`
(the loop index is cast to `u8`). -/
def calculateSyndromes (p : Nat) (data : List Nat) : List Nat :=
  (List.range p).map (fun i => evalPoly data (alphaPow (i % 256)))

/-- The write-back loop of `ReedSolomon::encode`:
`for (i, &n) in remainder.iter().enumerate().take(control_count) { encoded[i] = n }`. -/
def writeParity (encoded r : List Nat) (p : Nat) : List Nat :=
  (List.range (min p r.length)).foldl (fun e i => e.set i (r.getD i 0)) encoded

/-- `ReedSolomon::encode` (reed_solomon.rs): shift the data, take the
remainder modulo the generator polynomial, write it into the low positions.
`none` covers the too-long bail (and the unreachable division panic). -/
def rsEncode (p : Nat) (data : List Nat) : Option (List Nat) :=
  if 255 < data.length + p then none
  else
    match modPoly (shiftPoly data p) (buildGenPoly p) with
    | none => none
    | some r => some (writeParity (shiftPoly data p) r p)

theorem writeParity_spec (encoded r : List Nat) (p : Nat)
    (hple : min p r.length ≤ encoded.length) :
    ∀ m, m ≤ min p r.length →
      ((List.range m).foldl (fun e i => e.set i (r.getD i 0)) encoded).length =
        encoded.length ∧
      ∀ i, ((List.range m).foldl (fun e i => e.set i (r.getD i 0)) encoded).getD i 0 =
        if i < m then r.getD i 0 else encoded.getD i 0 := by
  intro m
  induction m with
  | zero =>
    intro _
    exact ⟨rfl, fun i => by rw [if_neg (by omega)]; rfl⟩
  | succ m ih =>
    intro hm
    obtain ⟨hlen, hget⟩ := ih (by omega)
    rw [foldl_range_succ]
    refine ⟨by rw [List.length_set]; exact hlen, fun i => ?_⟩
    by_cases hi : i = m
    · subst hi
      have hin : i < ((List.range i).foldl (fun e j => e.set j (r.getD j 0)) encoded).length := by
        rw [hlen]
        omega
      rw [getD_set_eq _ hin, if_pos (by omega)]
    · rw [getD_set_ne _ (fun hh => hi hh.symm), hget i]
      by_cases hlt : i < m
      · rw [if_pos hlt, if_pos (by omega)]
      · rw [if_neg hlt, if_neg (by omega)]

theorem Bytes_take {l : List Nat} (hl : Bytes l) (t : Nat) : Bytes (l.take t) := by
  intro i
  by_cases h : i < t
  · rw [getD_take h]
    exact hl i
  · by_cases h2 : i < (l.take t).length
    · rw [List.length_take] at h2
      omega
    · rw [getD_oob (by omega)]
      norm_num

theorem shiftPoly_drop (m : List Nat) (p : Nat) : (shiftPoly m p).drop p = m := by
  unfold shiftPoly
  exact List.drop_left' (List.length_replicate _ _)

theorem all_zero_getD {act : List Nat} (h : act.all (· == 0) = true) (i : Nat) :
    act.getD i 0 = 0 := by
  by_cases hi : i < act.length
  · rw [List.getD_eq_getElem _ _ hi]
    have := List.all_eq_true.mp h (act[i]) (List.getElem_mem hi)
    simpa using this
  · exact getD_oob (by omega)

theorem calcSyndromes_zero {p : Nat} {w : List Nat} (hp : p ≤ 256)
    (h : ∀ i, i < p → evalPoly w (alphaPow i) = 0) :
    calculateSyndromes p w = List.replicate p 0 := by
  unfold calculateSyndromes
  apply List.ext_getElem (by simp)
  intro i h1 h2
  simp only [List.getElem_map, List.getElem_range, List.getElem_replicate]
  have hi : i < p := by simpa using h1
  rw [Nat.mod_eq_of_lt (by omega)]
  exact h i hi

/-- **C2.** For every message `m` and parity count `p` with
`|m| + p ≤ 255`, `ReedSolomon::encode` succeeds, returns a word of length
`|m| + p` that is systematic (positions `p..` are `m` unchanged), and all `p`
syndromes of the word are zero. -/
theorem C2_encode (p : Nat) (m : List Nat) (hlen : m.length + p ≤ 255) (hm : Bytes m) :
    ∃ w, rsEncode p m = some w ∧
      w.length = m.length + p ∧
      w.drop p = m ∧
      (∀ i, i < p → evalPoly w (alphaPow i) = 0) ∧
      calculateSyndromes p w = List.replicate p 0 := by
  have hDlen : (shiftPoly m p).length = p + m.length := shiftPoly_length _ _
  have hGlen : (buildGenPoly p).length = p + 1 := buildGenPoly_length p
  have hBG : Bytes (buildGenPoly p) := Bytes_buildGenPoly p
  have hBD : Bytes (shiftPoly m p) := Bytes_shiftPoly hm p
  have hp1 : (buildGenPoly p).length - 1 = p := by omega
  have hlead : (buildGenPoly p).getD ((buildGenPoly p).length - 1) 0 = 1 := by
    rw [hp1]
    exact buildGenPoly_lead p
  have hG0 : (buildGenPoly p).getD ((buildGenPoly p).length - 1) 0 ≠ 0 := by
    rw [hlead]
    norm_num
  have hGne : (buildGenPoly p).isEmpty = false := by
    cases hG : buildGenPoly p with
    | nil => rw [hG] at hGlen; simp at hGlen
    | cons a l => rfl
  have hproot : ∀ t, t < p → evalPoly (buildGenPoly p) (alphaPow t) = 0 :=
    fun t ht => buildGenPoly_root p (by omega) t ht
  by_cases hcond : (shiftPoly m p).length < (buildGenPoly p).length ∨
      ((shiftPoly m p).length = (buildGenPoly p).length ∧
        (shiftPoly m p).getD ((shiftPoly m p).length - 1) 0 <
          (buildGenPoly p).getD ((buildGenPoly p).length - 1) 0)
  · -- early-return branch: the dividend is the whole remainder, and it is all
    -- zero (the message is empty or the single byte 0)
    have hdiv : divPoly (shiftPoly m p) (buildGenPoly p) = some ([0], shiftPoly m p) := by
      unfold divPoly
      rw [hGne]
      simp only [Bool.false_eq_true, if_false]
      rw [if_neg hG0, if_pos hcond]
    have hmz : ∀ i, (shiftPoly m p).getD i 0 = 0 := by
      intro i
      by_cases hip : i < p
      · exact shiftPoly_getD_lo hip
      obtain ⟨j, rfl⟩ : ∃ j, i = p + j := ⟨i - p, by omega⟩
      rw [shiftPoly_getD_hi]
      rcases hcond with h | ⟨h1, h2⟩
      · exact getD_oob (by omega)
      · have hm1 : m.length = 1 := by omega
        rw [hlead] at h2
        by_cases hj : j = 0
        · subst hj
          have hD1 : (shiftPoly m p).length - 1 = p + 0 := by omega
          rw [hD1, shiftPoly_getD_hi] at h2
          omega
        · exact getD_oob (by omega)
    have hw : writeParity (shiftPoly m p) (shiftPoly m p) p = shiftPoly m p := by
      obtain ⟨hl, hg⟩ := writeParity_spec (shiftPoly m p) (shiftPoly m p) p
        (Nat.min_le_right _ _) (min p (shiftPoly m p).length) (le_refl _)
      apply list_ext_getD hl
      intro i _
      rw [hg i]
      split <;> rfl
    refine ⟨shiftPoly m p, ?_, by omega, shiftPoly_drop m p,
      fun i _ => evalPoly_zero_of_zero hmz _, ?_⟩
    · unfold rsEncode
      rw [if_neg (by omega)]
      have hmod : modPoly (shiftPoly m p) (buildGenPoly p) = some (shiftPoly m p) := by
        unfold modPoly
        rw [hdiv]
        rfl
      rw [hmod]
      show some (writeParity (shiftPoly m p) (shiftPoly m p) p) = some (shiftPoly m p)
      rw [hw]
    · exact calcSyndromes_zero (by omega) (fun i _ => evalPoly_zero_of_zero hmz _)
  · -- main branch through the long-division loop
    have hmlen : 1 ≤ m.length := by
      push_neg at hcond
      omega
    obtain ⟨hq1, hr1, hBq, hBr, hqz, hrz, hev⟩ :=
      divLoop_spec (buildGenPoly p) (shiftPoly m p) hBG hBD (by omega) (by omega)
        (by omega) hG0 ((shiftPoly m p).length - (buildGenPoly p).length + 1)
        (le_refl _) _ rfl
    set S := (List.range ((shiftPoly m p).length - (buildGenPoly p).length + 1)).foldl
      (divStep (buildGenPoly p)
        ((buildGenPoly p).getD ((buildGenPoly p).length - 1) 0)
        ((shiftPoly m p).length - (buildGenPoly p).length + 1))
      (List.replicate ((shiftPoly m p).length - (buildGenPoly p).length + 1) 0,
        shiftPoly m p) with hS
    have hzero_top : ∀ idx, p ≤ idx → S.2.getD idx 0 = 0 := by
      intro idx h
      by_cases h2 : idx < (shiftPoly m p).length
      · exact hrz idx (by omega) h2
      · exact getD_oob (by omega)
    have heval_root : ∀ t, t < p →
        evalPoly S.2 (alphaPow t) = evalPoly (shiftPoly m p) (alphaPow t) := by
      intro t ht
      have := hev (alphaPow t) (alphaPow_lt t)
      rw [hproot t ht, fastMul_zero_right, Nat.xor_zero] at this
      exact this
    have hdiv : divPoly (shiftPoly m p) (buildGenPoly p) =
        some (S.1, if (S.2.take ((buildGenPoly p).length - 1)).isEmpty ∨
            (S.2.take ((buildGenPoly p).length - 1)).all (· == 0) then [0]
          else S.2.take ((buildGenPoly p).length - 1)) := by
      unfold divPoly
      rw [hGne]
      simp only [Bool.false_eq_true, if_false]
      rw [if_neg hG0, if_neg hcond]
    rw [hp1] at hdiv
    have hplen : p ≤ S.2.length := by omega
    have hact_len : (S.2.take p).length = p := by
      rw [List.length_take]
      omega
    by_cases hz : (S.2.take p).isEmpty ∨ (S.2.take p).all (· == 0)
    · rw [if_pos hz] at hdiv
      have hDz : ∀ t, t < p → evalPoly (shiftPoly m p) (alphaPow t) = 0 := by
        intro t ht
        have hall : (S.2.take p).all (· == 0) = true := by
          rcases hz with h | h
          · exfalso
            rw [List.isEmpty_iff] at h
            rw [h] at hact_len
            simp at hact_len
            omega
          · exact h
        have hSz : ∀ i, S.2.getD i 0 = 0 := by
          intro i
          by_cases hip : i < p
          · have := all_zero_getD hall i
            rwa [getD_take hip] at this
          · exact hzero_top i (by omega)
        rw [← heval_root t ht]
        exact evalPoly_zero_of_zero hSz _
      have hw0 : writeParity (shiftPoly m p) [0] p = shiftPoly m p := by
        obtain ⟨hl, hg⟩ := writeParity_spec (shiftPoly m p) [0] p
          (by rw [hDlen]; simp) (min p 1) (le_refl _)
        apply list_ext_getD hl
        intro i _
        rw [hg i]
        by_cases hi : i < min p 1
        · rw [if_pos hi]
          have hi0 : i = 0 := by omega
          subst hi0
          have hp0 : 1 ≤ p := by omega
          rw [shiftPoly_getD_lo hp0]
          rfl
        · rw [if_neg hi]
      refine ⟨shiftPoly m p, ?_, by omega, shiftPoly_drop m p, hDz,
        calcSyndromes_zero (by omega) hDz⟩
      unfold rsEncode
      rw [if_neg (by omega)]
      have hmod : modPoly (shiftPoly m p) (buildGenPoly p) = some [0] := by
        unfold modPoly
        rw [hdiv]
        rfl
      rw [hmod]
      show some (writeParity (shiftPoly m p) [0] p) = some (shiftPoly m p)
      rw [hw0]
    · rw [if_neg hz] at hdiv
      have hmin : min p (S.2.take p).length = p := by
        rw [hact_len]
        omega
      obtain ⟨hwl, hwg⟩ := writeParity_spec (shiftPoly m p) (S.2.take p) p
        (by rw [hmin, hDlen]; omega) (min p (S.2.take p).length) (le_refl _)
      rw [hmin] at hwg
      have hwp : writeParity (shiftPoly m p) (S.2.take p) p =
          List.foldl (fun e i => e.set i ((S.2.take p).getD i 0)) (shiftPoly m p)
            (List.range p) := by
        unfold writeParity
        rw [hmin]
      rw [hmin] at hwl
      rw [← hwp] at hwl hwg
      have hweq : ∀ i, i < (shiftPoly m p).length →
          (writeParity (shiftPoly m p) (S.2.take p) p).getD i 0 =
            (addPoly (shiftPoly m p) (S.2.take p)).getD i 0 := by
        intro i hi
        have hgi := hwg i
        rw [addPoly_getD (by rw [hact_len]; omega)]
        by_cases hip : i < p
        · rw [if_pos hip] at hgi
          rw [hgi, shiftPoly_getD_lo hip, Nat.zero_xor]
        · rw [if_neg hip] at hgi
          rw [hgi, getD_oob (l := S.2.take p) (by omega), Nat.xor_zero]
      have hsynd : ∀ t, t < p →
          evalPoly (writeParity (shiftPoly m p) (S.2.take p) p) (alphaPow t) = 0 := by
        intro t ht
        have hwfull : writeParity (shiftPoly m p) (S.2.take p) p =
            addPoly (shiftPoly m p) (S.2.take p) := by
          apply list_ext_getD
          · rw [addPoly_length, hact_len, hDlen, Nat.max_eq_left (by omega)]
            exact hwl.trans hDlen
          · intro i hi
            exact hweq i (hwl ▸ hi)
        rw [hwfull, evalPoly_addPoly hBD (Bytes_take hBr p),
          ← evalPoly_eq_take (x := alphaPow t) hzero_top hplen,
          heval_root t ht, Nat.xor_self]
      refine ⟨writeParity (shiftPoly m p) (S.2.take p) p, ?_, ?_, ?_, hsynd,
        calcSyndromes_zero (by omega) hsynd⟩
      · unfold rsEncode
        rw [if_neg (by omega)]
        have hmod : modPoly (shiftPoly m p) (buildGenPoly p) = some (S.2.take p) := by
          unfold modPoly
          rw [hdiv]
          rfl
        rw [hmod]
      · rw [hwl, hDlen]
        omega
      · apply list_ext_getD
        · rw [List.length_drop, hwl, hDlen]
          omega
        · intro j hj
          rw [List.length_drop, hwl, hDlen] at hj
          rw [getD_drop, hwg (p + j), if_neg (by omega), shiftPoly_getD_hi]

/-- Closed-form witness for `C2_encode` at `p = 4`, `m = [1, 2, 3]`. -/
theorem C2_encode_witness :
    ∃ w, rsEncode 4 [1, 2, 3] = some w ∧
      w.length = [1, 2, 3].length + 4 ∧
      w.drop 4 = [1, 2, 3] ∧
      (∀ i, i < 4 → evalPoly w (alphaPow i) = 0) ∧
      calculateSyndromes 4 w = List.replicate 4 0 := by
  refine C2_encode 4 [1, 2, 3] (by decide) ?_
  intro i
  match i with
  | 0 => decide
  | 1 => decide
  | 2 => decide
  | n + 3 =>
    rw [getD_oob (by simp)]
    decide

/-! ### Commutativity of `mul_poly` and the Forney machinery (C4) -/

theorem fastMul_comm (a b : Nat) : fastMul a b = fastMul b a := by
  unfold fastMul
  by_cases ha : a = 0
  · simp [ha]
  · by_cases hb : b = 0
    · simp [hb]
    · rw [if_neg (by tauto), if_neg (by tauto), Nat.add_comm]

theorem divMulCancel {a L : Nat} (ha : a < 256) (hL : L < 256) (h0 : L ≠ 0) :
    fastDivT (fastMul a L) L = a := by
  by_cases h : a = 0
  · subst h
    rw [fastMul_zero_left]
    show (if (0:Nat) = 0 then 0 else _) = 0
    rw [if_pos rfl]
  · rw [fastMul_eq_E ha h hL h0, fastDivT_eq_E (E_lt _) (E_ne _) hL]
    have ht := log_exp (glogB a + glogB L)
    have hla := glogB_lt a
    have hlL := glogB_lt L
    rw [show E (glogB (E (glogB a + glogB L)) + 255 - glogB L) = E (glogB a) from
      E_congr (by omega)]
    exact exp_log a ha h

theorem xorSum_swap (n m : Nat) (f : Nat → Nat → Nat) :
    xorSum n (fun i => xorSum m (fun j => f i j)) =
      xorSum m (fun j => xorSum n (fun i => f i j)) := by
  induction m with
  | zero =>
    show (xorSum n fun i => xorSum 0 fun j => f i j) = 0
    exact xorSum_zero_f (fun i _ => rfl)
  | succ k ih =>
    rw [xorSum_succ,
      xorSum_congr (fun i _ => xorSum_succ k (fun j => f i j)),
      xorSum_add, ih]

theorem mulInner_spec (b : List Nat) (ai i : Nat) (res : List Nat)
    (hin : ∀ j, j < b.length → i + j < res.length) :
    ∀ n, n ≤ b.length →
      ((List.range n).foldl (fun r j =>
        r.set (i + j) (gadd (r.getD (i + j) 0) (fastMul ai (b.getD j 0)))) res).length =
        res.length ∧
      ∀ k, ((List.range n).foldl (fun r j =>
        r.set (i + j) (gadd (r.getD (i + j) 0) (fastMul ai (b.getD j 0)))) res).getD k 0 =
        res.getD k 0 ^^^ xorSum n (fun j => if i + j = k then fastMul ai (b.getD j 0) else 0) := by
  intro n
  induction n with
  | zero =>
    intro _
    refine ⟨rfl, fun k => ?_⟩
    show res.getD k 0 = res.getD k 0 ^^^ 0
    rw [Nat.xor_zero]
  | succ t ih =>
    intro hn
    obtain ⟨ihl, ihg⟩ := ih (by omega)
    rw [foldl_range_succ]
    refine ⟨by rw [List.length_set]; exact ihl, fun k => ?_⟩
    by_cases hk : i + t = k
    · subst hk
      rw [getD_set_eq _ (by rw [ihl]; exact hin t (by omega)), xorSum_succ, if_pos rfl]
      show (((List.range t).foldl _ res).getD (i + t) 0) ^^^ _ = _
      rw [ihg (i + t), Nat.xor_assoc]
    · rw [getD_set_ne _ hk, xorSum_succ, if_neg hk, Nat.xor_zero]
      exact ihg k

theorem mulPoly_getD (a b : List Nat) (k : Nat) :
    (mulPoly a b).getD k 0 =
      xorSum a.length (fun i => xorSum b.length (fun j =>
        if i + j = k then fastMul (a.getD i 0) (b.getD j 0) else 0)) := by
  unfold mulPoly
  have main : ∀ m, m ≤ a.length →
      ((List.range m).foldl (fun res i =>
        (List.range b.length).foldl (fun res j =>
          res.set (i + j) (gadd (res.getD (i + j) 0) (fastMul (a.getD i 0) (b.getD j 0)))) res)
        (List.replicate (a.length + b.length - 1) 0)).length = a.length + b.length - 1 ∧
      ∀ k, ((List.range m).foldl (fun res i =>
        (List.range b.length).foldl (fun res j =>
          res.set (i + j) (gadd (res.getD (i + j) 0) (fastMul (a.getD i 0) (b.getD j 0)))) res)
        (List.replicate (a.length + b.length - 1) 0)).getD k 0 =
        xorSum m (fun i => xorSum b.length (fun j =>
          if i + j = k then fastMul (a.getD i 0) (b.getD j 0) else 0)) := by
    intro m
    induction m with
    | zero =>
      intro _
      refine ⟨by simp, fun k => ?_⟩
      show (List.replicate (a.length + b.length - 1) 0).getD k 0 = 0
      rw [List.getD_eq_getElem?_getD]
      by_cases hk : k < a.length + b.length - 1
      · rw [List.getElem?_replicate, if_pos hk]
        rfl
      · rw [List.getElem?_eq_none (by simpa using Nat.le_of_not_lt hk)]
        rfl
    | succ t ih =>
      intro hm
      obtain ⟨ihl, ihg⟩ := ih (by omega)
      rw [foldl_range_succ]
      obtain ⟨hl2, hg2⟩ := mulInner_spec b (a.getD t 0) t _
        (fun j hj => by rw [ihl]; omega) b.length (le_refl _)
      refine ⟨by rw [hl2, ihl], fun k => ?_⟩
      rw [hg2 k, ihg k, xorSum_succ]
  exact (main a.length (le_refl _)).2 k

theorem mulPoly_comm (a b : List Nat) : mulPoly a b = mulPoly b a := by
  apply list_ext_getD
  · rw [mulPoly_length, mulPoly_length, Nat.add_comm]
  · intro k _
    rw [mulPoly_getD, mulPoly_getD, xorSum_swap]
    apply xorSum_congr
    intro i _
    apply xorSum_congr
    intro j _
    exact if_congr (by omega) (fastMul_comm _ _) rfl

/-- `l.reverse.getD i 0` in terms of `l`. -/
theorem getD_reverse {l : List Nat} {i : Nat} (h : i < l.length) :
    l.reverse.getD i 0 = l.getD (l.length - 1 - i) 0 := by
  rw [List.getD_eq_getElem?_getD, List.getD_eq_getElem?_getD, List.getElem?_reverse h]

/-- Helper for the trailing-zero trimming loop of `find_locator_derivative`:
drops the leading zeros of a list. -/
def trimZeros : List Nat → List Nat
  | [] => []
  | x :: xs => if x = 0 then trimZeros xs else x :: xs

theorem trimZeros_spec (l : List Nat) :
    ∃ k, k ≤ l.length ∧ trimZeros l = l.drop k ∧ ∀ i, i < k → l.getD i 0 = 0 := by
  induction l with
  | nil => exact ⟨0, by omega, rfl, fun i hi => by omega⟩
  | cons x xs ih =>
    by_cases hx : x = 0
    · obtain ⟨k, hk, hdrop, hz⟩ := ih
      refine ⟨k + 1, by simp; omega, ?_, ?_⟩
      · show (if x = 0 then trimZeros xs else x :: xs) = xs.drop k
        rw [if_pos hx, hdrop]
      · intro i hi
        cases i with
        | zero => exact hx
        | succ j => exact hz j (by omega)
    · refine ⟨0, by omega, ?_, fun i hi => by omega⟩
      show (if x = 0 then trimZeros xs else x :: xs) = (x :: xs).drop 0
      rw [if_neg hx, List.drop_zero]

/-- Trimming the reverse and reversing back is taking a prefix, and everything
beyond that prefix is zero. -/
theorem trim_rev_spec (xs : List Nat) :
    ∃ t, t ≤ xs.length ∧ (trimZeros xs.reverse).reverse = xs.take t ∧
      ∀ i, t ≤ i → xs.getD i 0 = 0 := by
  obtain ⟨k, hk, hdrop, hz⟩ := trimZeros_spec xs.reverse
  rw [List.length_reverse] at hk
  refine ⟨xs.length - k, by omega, ?_, ?_⟩
  · rw [hdrop]
    apply list_ext_getD
    · simp only [List.length_reverse, List.length_drop, List.length_take]
      omega
    · intro i hi
      simp only [List.length_reverse, List.length_drop] at hi
      have h1 : i < (xs.reverse.drop k).length := by
        simp
        omega
      rw [getD_reverse h1]
      rw [List.length_drop, List.length_reverse] at h1 ⊢
      rw [getD_drop, getD_take (by omega)]
      have h2 : k + (xs.length - k - 1 - i) < xs.reverse.length := by
        simp
        omega
      rw [getD_reverse (by simpa using h2)]
      congr 1
      omega

  · intro i hi
    by_cases hlen : i < xs.length
    · have h3 : xs.reverse.getD (xs.length - 1 - i) 0 = xs.getD i 0 := by
        rw [getD_reverse (by omega : xs.length - 1 - i < xs.length)]
        congr 1
        omega
      rw [← h3]
      exact hz _ (by omega)
    · exact getD_oob (by omega)

/-- The in-place write loop of `find_locator_derivative`: for every odd index
`i` of the locator, write `locator[i]` at position `i - 1`. -/
def derivPre (locator : List Nat) : List Nat :=
  (List.range locator.length).foldl
    (fun d i => if i % 2 = 1 then d.set (i - 1) (locator.getD i 0) else d)
    (List.replicate locator.length 0)

/-- The formal derivative of the locator as the spec words it: odd-degree
coefficients copied down one position, even-degree ones zeroed. -/
def specDeriv (locator : List Nat) : List Nat :=
  (List.range locator.length).map
    (fun i => if i % 2 = 0 then locator.getD (i + 1) 0 else 0)

theorem derivPre_spec (locator : List Nat) :
    ∀ m, m ≤ locator.length →
      ((List.range m).foldl
        (fun d i => if i % 2 = 1 then d.set (i - 1) (locator.getD i 0) else d)
        (List.replicate locator.length 0)).length = locator.length ∧
      ∀ idx, ((List.range m).foldl
        (fun d i => if i % 2 = 1 then d.set (i - 1) (locator.getD i 0) else d)
        (List.replicate locator.length 0)).getD idx 0 =
        if idx % 2 = 0 ∧ idx + 1 < m then locator.getD (idx + 1) 0 else 0 := by
  intro m
  induction m with
  | zero =>
    intro _
    refine ⟨by simp, fun idx => ?_⟩
    rw [if_neg (by omega)]
    show (List.replicate locator.length 0).getD idx 0 = 0
    rw [List.getD_eq_getElem?_getD]
    by_cases hk : idx < locator.length
    · rw [List.getElem?_replicate, if_pos hk]
      rfl
    · rw [List.getElem?_eq_none (by simpa using Nat.le_of_not_lt hk)]
      rfl
  | succ t ih =>
    intro hm
    obtain ⟨ihl, ihg⟩ := ih (by omega)
    rw [foldl_range_succ]
    by_cases ht : t % 2 = 1
    · rw [if_pos ht]
      refine ⟨by rw [List.length_set]; exact ihl, fun idx => ?_⟩
      by_cases hidx : idx = t - 1
      · subst hidx
        rw [getD_set_eq _ (by rw [ihl]; omega), if_pos ⟨by omega, by omega⟩]
        congr 1
        omega
      · rw [getD_set_ne _ (fun h => hidx h.symm), ihg idx]
        by_cases h1 : idx % 2 = 0
        · by_cases h2 : idx + 1 < t
          · rw [if_pos ⟨h1, h2⟩, if_pos ⟨h1, by omega⟩]
          · rw [if_neg (fun hc => h2 hc.2),
              if_neg (by rintro ⟨_, hlt⟩; exact hidx (by omega))]
        · rw [if_neg (fun hc => h1 hc.1), if_neg (fun hc => h1 hc.1)]
    · rw [if_neg ht]
      refine ⟨ihl, fun idx => ?_⟩
      rw [ihg idx]
      by_cases h1 : idx % 2 = 0
      · by_cases h2 : idx + 1 < t
        · rw [if_pos ⟨h1, h2⟩, if_pos ⟨h1, by omega⟩]
        · rw [if_neg (fun hc => h2 hc.2),
            if_neg (by rintro ⟨_, hlt⟩; omega)]
      · rw [if_neg (fun hc => h1 hc.1), if_neg (fun hc => h1 hc.1)]

theorem derivPre_eq (locator : List Nat) : derivPre locator = specDeriv locator := by
  obtain ⟨hl, hg⟩ := derivPre_spec locator locator.length (le_refl _)
  have hl' : (derivPre locator).length = locator.length := hl
  have hg' : ∀ idx, (derivPre locator).getD idx 0 =
      if idx % 2 = 0 ∧ idx + 1 < locator.length then locator.getD (idx + 1) 0 else 0 := hg
  apply list_ext_getD
  · rw [hl']
    unfold specDeriv
    rw [List.length_map, List.length_range]
  · intro idx hidx
    rw [hl'] at hidx
    rw [hg' idx]
    unfold specDeriv
    rw [getD_range_map _ _ _ hidx]
    by_cases h1 : idx % 2 = 0
    · by_cases h2 : idx + 1 < locator.length
      · rw [if_pos ⟨h1, h2⟩, if_pos h1]
      · rw [if_neg (fun hc => h2 hc.2), if_pos h1, getD_oob (by omega)]
    · rw [if_neg (fun hc => h1 hc.1), if_neg h1]

theorem eval_trim_cons (c : Nat) (cs : List Nat) (x : Nat) :
    evalPoly (c :: (trimZeros cs.reverse).reverse) x = evalPoly (c :: cs) x := by
  obtain ⟨t, ht, htake, hz⟩ := trim_rev_spec cs
  rw [htake, evalPoly_eq_xorSum, evalPoly_eq_xorSum]
  have hlen1 : (c :: cs.take t).length = t + 1 := by
    simp only [List.length_cons, List.length_take]
    omega
  have hlen2 : (c :: cs).length = cs.length + 1 := rfl
  rw [hlen1, hlen2]
  have hext : xorSum (cs.length + 1)
      (fun i => fastMul ((c :: cs).getD i 0) (fastPow x (i % 256))) = xorSum (t + 1)
      (fun i => fastMul ((c :: cs).getD i 0) (fastPow x (i % 256))) := by
    apply xorSum_ext (by omega)
    intro i hi1 hi2
    have hge : (c :: cs).getD i 0 = 0 := by
      cases i with
      | zero => omega
      | succ j =>
        show cs.getD j 0 = 0
        exact hz j (by omega)
    rw [hge, fastMul_zero_left]
  rw [hext]
  apply xorSum_congr
  intro i hi
  cases i with
  | zero => rfl
  | succ j =>
    show fastMul ((cs.take t).getD j 0) _ = fastMul (cs.getD j 0) _
    rw [getD_take (by omega)]

/-- `ReedSolomon::find_locator_derivative` (identical in both crates): write
each odd-index locator coefficient one position down, then pop trailing zeros
(the trimming loop never removes index 0). -/
def find_locator_derivative (locator : List Nat) : List Nat :=
  match derivPre locator with
  | [] => []
  | x :: xs => x :: (trimZeros xs.reverse).reverse

theorem eval_find_locator_derivative (locator : List Nat) (x : Nat) :
    evalPoly ( find_locator_derivative locator) x = evalPoly (specDeriv locator) x := by
  unfold find_locator_derivative
  rw [derivPre_eq]
  cases hsd : specDeriv locator with
  | nil => rfl
  | cons c cs => exact eval_trim_cons c cs x

/-- `ReedSolomon::find_error_magnitudes` of the reed_solomon crate:
`Ω = (mul_poly(locator, syndromes)).truncate(control_count)`; for each error
position, `Y = div(Ω(α^{-j}), L'(α^{-j})) * α^j`.  `inverse` on `0` and `div`
by `0` panic, modelled as `none`. -/
def find_error_magnitudes (control_count : Nat)
    (syndromes locator error_positions : List Nat) : Option (List Nat) :=
  error_positions.mapM (fun err_pos =>
    (fastInv (alphaPow (err_pos % 256))).bind (fun alpha_inv =>
      (fastDiv (evalPoly ((mulPoly locator syndromes).take control_count) alpha_inv)
        (evalPoly ( find_locator_derivative locator) alpha_inv)).map
        (fun division => fastMul division (alphaPow (err_pos % 256)))))

/-- `ReedSolomon::find_error_magnitudes` of the qr_code_generator crate: same
`Ω` (the explicit slice of `omega_full` when it is longer than
`control_count`), but the magnitude is `div(Ω(α^{-j}), L'(α^{-j}))` with no
`· α^j` factor; the unused `data_len` argument is kept. -/
def qrFindErrorMagnitudes (control_count : Nat)
    (syndromes locator error_positions : List Nat) (data_len : Nat) : Option (List Nat) :=
  error_positions.mapM (fun err_pos =>
    (fastInv (alphaPow (err_pos % 256))).bind (fun x_inv =>
      fastDiv
        (evalPoly
          (if control_count < (mulPoly locator syndromes).length then
            (mulPoly locator syndromes).take control_count
          else mulPoly locator syndromes) x_inv)
        (evalPoly ( find_locator_derivative locator) x_inv)))

/-- The Forney error magnitude exactly as the spec words it:
`Ω(x) = (S(x)·L(x)) mod x^p`, `L'` the characteristic-2 formal derivative,
`Y = (Ω(X⁻¹) / L'(X⁻¹)) · X` with `X = α^j`. -/
def forneyMagnitude (p : Nat) (syndromes locator : List Nat) (j : Nat) : Option Nat :=
  (fastInv (alphaPow (j % 256))).bind (fun xinv =>
    (fastDiv (evalPoly ((mulPoly syndromes locator).take p) xinv)
      (evalPoly (specDeriv locator) xinv)).map
      (fun y => fastMul y (alphaPow (j % 256))))

theorem if_take_eq (l : List Nat) (n : Nat) :
    (if n < l.length then l.take n else l) = l.take n := by
  by_cases h : n < l.length
  · rw [if_pos h]
  · rw [if_neg h, List.take_of_length_le (by omega)]

theorem qr_rs_bridge (num den X : Nat) (hX : X < 256) (hX0 : X ≠ 0) :
    fastDiv num den =
      ((fastDiv num den).map (fun y => fastMul y X)).map (fun y => fastDivT y X) := by
  unfold fastDiv
  by_cases h0 : den = 0
  · rw [if_pos h0]
    rfl
  · rw [if_neg h0]
    show some _ = some (fastDivT (fastMul (fastDivT num den) X) X)
    rw [divMulCancel (fastDivT_lt _ _) hX hX0]

/-- **C4 (counterexample).** At `p = 2`, syndromes `[1,2]`, locator `[1,2]`,
error position `1`, the qr_code_generator `find_error_magnitudes` returns
`[142]` while the spec's Forney formula gives `[1]` (the code omits the final
`· α^j` factor). -/
theorem C4_forney_counterexample :
    qrFindErrorMagnitudes 2 [1, 2] [1, 2] [1] 4 = some [142] ∧
    [1].mapM (fun j => forneyMagnitude 2 [1, 2] [1, 2] j) = some [1] ∧
    find_error_magnitudes 2 [1, 2] [1, 2] [1] = some [1] ∧
    (142 : Nat) ≠ 1 := by
  refine ⟨by decide!, by decide!, by decide!, by decide⟩

/-- **C4 (amended).** The reed_solomon crate's `find_error_magnitudes` computes
exactly the spec's Forney magnitude `Y = (Ω(α^{-j})/L'(α^{-j}))·α^j` for every
error position; the qr_code_generator version computes that value divided by
`α^j`, i.e. it omits the final `· α^j` factor. -/
theorem C4_forney_amended (p : Nat) (synd loc positions : List Nat) (data_len : Nat) :
    find_error_magnitudes p synd loc positions =
      positions.mapM (fun j => forneyMagnitude p synd loc j) ∧
    qrFindErrorMagnitudes p synd loc positions data_len =
      positions.mapM (fun j => (forneyMagnitude p synd loc j).map
        (fun y => fastDivT y (alphaPow (j % 256)))) := by
  constructor
  · unfold find_error_magnitudes forneyMagnitude
    refine congrArg (fun h => List.mapM h positions) (funext fun j => ?_)
    simp only [mulPoly_comm loc synd, eval_find_locator_derivative]
  · unfold qrFindErrorMagnitudes forneyMagnitude
    refine congrArg (fun h => List.mapM h positions) (funext fun j => ?_)
    simp only [if_take_eq, mulPoly_comm loc synd, eval_find_locator_derivative]
    cases hX : fastInv (alphaPow (j % 256)) with
    | none => rfl
    | some xinv =>
      exact qr_rs_bridge _ _ _ (alphaPow_lt _) (alphaPow_ne_zero _)

/-! ### `ReedSolomon::decode` of the reed_solomon crate (C7) -/

/-- Decode outcome: `ok` (the `Ok` payload), `fail k` (the `k`-th
`anyhow::bail!` message: 1 = input too long, 2 = locator degree too large,
3 = more Chien roots than expected errors, 4 = nonzero syndromes after
correction), or a panic (`panicDiv` for `gf.div`/`gf.inverse` on zero,
`panicOther` for slice/index panics). -/
inductive RSRes where
  | ok : List Nat → RSRes
  | fail : Nat → RSRes
  | panicDiv : RSRes
  | panicOther : RSRes
deriving DecidableEq

/-- Propagation of failures, as the `?` operator does. -/
def RSRes.bind (r : RSRes) (f : List Nat → RSRes) : RSRes :=
  match r with
  | RSRes.ok v => f v
  | RSRes.fail k => RSRes.fail k
  | RSRes.panicDiv => RSRes.panicDiv
  | RSRes.panicOther => RSRes.panicOther

theorem RSRes.bind_ok (v : List Nat) (f : List Nat → RSRes) :
    RSRes.bind (RSRes.ok v) f = f v := rfl

theorem RSRes.bind_fail (k : Nat) (f : List Nat → RSRes) :
    RSRes.bind (RSRes.fail k) f = RSRes.fail k := rfl

/-- State of the Berlekamp–Massey loop in `find_error_locator`. -/
structure BMState where
  locator : List Nat
  old_locator : List Nat
  locator_degree : Nat
  m : Nat
  old_discrepancy : Nat

/-- The discrepancy `d = Sn + C₁·S(n-1) + … + CL·S(n-L)` with the code's
guard `i < locator.len() && i <= n`. -/
def bmDiscrepancy (syndromes locator : List Nat) (locator_degree n : Nat) : Nat :=
  (List.range locator_degree).foldl (fun d i0 =>
    if i0 + 1 < locator.length ∧ i0 + 1 ≤ n then
      gadd d (fastMul (locator.getD (i0 + 1) 0) (syndromes.getD (n - (i0 + 1)) 0))
    else d) (syndromes.getD n 0)

/-- The `while locator.len() > 1 && last == 0 { pop }` trimming. -/
def trimLoc (l : List Nat) : List Nat :=
  match trimZeros l.reverse with
  | [] => l.take 1
  | x :: xs => (x :: xs).reverse

/-- One iteration of the Berlekamp–Massey loop; `none` is the `gf.div`
panic on a zero `old_discrepancy`. -/
def bmStep (syndromes : List Nat) : Option BMState → Nat → Option BMState
  | none, _ => none
  | some s, n =>
    if bmDiscrepancy syndromes s.locator s.locator_degree n = 0 then
      some ⟨s.locator, s.old_locator, s.locator_degree, s.m + 1, s.old_discrepancy⟩
    else
      match fastDiv (bmDiscrepancy syndromes s.locator s.locator_degree n)
          s.old_discrepancy with
      | none => none
      | some scale =>
        if 2 * s.locator_degree ≤ n then
          some ⟨trimLoc (addPoly s.locator (shiftPoly (scalePoly s.old_locator scale) s.m)),
                s.locator, n + 1 - s.locator_degree, 1,
                bmDiscrepancy syndromes s.locator s.locator_degree n⟩
        else
          some ⟨trimLoc (addPoly s.locator (shiftPoly (scalePoly s.old_locator scale) s.m)),
                s.old_locator, s.locator_degree, s.m + 1, s.old_discrepancy⟩

/-- `ReedSolomon::find_error_locator`: Berlekamp–Massey over the
`control_count` syndromes, then the `locator_degree > control_count / 2`
check (`fail 2`). -/
def find_error_locator (control_count : Nat) (syndromes : List Nat) : RSRes :=
  match (List.range control_count).foldl (bmStep syndromes) (some ⟨[1], [1], 0, 1, 1⟩) with
  | none => RSRes.panicDiv
  | some s =>
    if control_count / 2 < s.locator_degree then RSRes.fail 2
    else RSRes.ok s.locator

/-- `ReedSolomon::find_error_positions`: Chien search over `0..data_len`,
then the `positions.len() > expected_errors` check (`fail 3`). -/
def find_error_positions (error_locator : List Nat) (data_len : Nat) : RSRes :=
  match (List.range data_len).foldl (fun acc i =>
      match acc with
      | none => none
      | some ps =>
        match fastInv (alphaPow (i % 256)) with
        | none => none
        | some alpha_inv =>
          if evalPoly error_locator alpha_inv = 0 then some (ps ++ [i]) else some ps)
      (some []) with
  | none => RSRes.panicOther
  | some positions =>
    if error_locator.length - 1 < positions.length then RSRes.fail 3
    else RSRes.ok positions

/-- `ReedSolomon::correct_errors`: xor each magnitude into its position,
panicking (`none`) when a position is out of bounds. -/
def correct_errors (data positions magnitudes : List Nat) : Option (List Nat) :=
  (positions.zip magnitudes).foldl (fun acc pm =>
    match acc with
    | none => none
    | some c =>
      if pm.1 < c.length then some (c.set pm.1 (gadd (c.getD pm.1 0) pm.2)) else none)
    (some data)

/-- `ReedSolomon::decode` of the reed_solomon crate: length check, all-zero
syndrome early return (slicing `data[control_count..]`), Berlekamp–Massey,
Chien search, Forney, correction, and the post-correction syndrome check. -/
def rsDecode (control_count : Nat) (data : List Nat) : RSRes :=
  if 255 < data.length then RSRes.fail 1
  else if (calculateSyndromes control_count data).all (· == 0) then
    (if control_count ≤ data.length then RSRes.ok (data.drop control_count)
     else RSRes.panicOther)
  else
    RSRes.bind (find_error_locator control_count (calculateSyndromes control_count data))
      (fun error_locator =>
        RSRes.bind (find_error_positions error_locator data.length) (fun error_positions =>
          match find_error_magnitudes control_count (calculateSyndromes control_count data)
              error_locator error_positions with
          | none => RSRes.panicDiv
          | some error_magnitudes =>
            match correct_errors data error_positions error_magnitudes with
            | none => RSRes.panicOther
            | some corrected =>
              if (calculateSyndromes control_count corrected).any (· != 0) then RSRes.fail 4
              else if control_count ≤ corrected.length then
                RSRes.ok (corrected.drop control_count)
              else RSRes.panicOther))

theorem foldl_invariant_mem {α β : Type} (P : α → Prop) (f : α → β → α) :
    ∀ (l : List β), (∀ a b, b ∈ l → P a → P (f a b)) → ∀ a, P a → P (l.foldl f a) := by
  intro l
  induction l with
  | nil => intro _ a ha; exact ha
  | cons x xs ih =>
    intro h a ha
    exact ih (fun a b hb hp => h a b (List.mem_cons_of_mem x hb) hp) (f a x)
      (h a x (List.mem_cons_self x xs) ha)

theorem bmStep_inv (synd : List Nat) (st : Option BMState) (n : Nat)
    (h : ∃ s, st = some s ∧ s.old_discrepancy ≠ 0) :
    ∃ s, bmStep synd st n = some s ∧ s.old_discrepancy ≠ 0 := by
  obtain ⟨s, rfl, hod⟩ := h
  simp only [bmStep]
  by_cases hd : bmDiscrepancy synd s.locator s.locator_degree n = 0
  · rw [if_pos hd]
    exact ⟨_, rfl, hod⟩
  · rw [if_neg hd]
    have hdiv : fastDiv (bmDiscrepancy synd s.locator s.locator_degree n)
        s.old_discrepancy = some (fastDivT (bmDiscrepancy synd s.locator s.locator_degree n)
          s.old_discrepancy) := by
      unfold fastDiv
      rw [if_neg hod]
    simp only [hdiv]
    by_cases h2 : 2 * s.locator_degree ≤ n
    · rw [if_pos h2]
      exact ⟨_, rfl, hd⟩
    · rw [if_neg h2]
      exact ⟨_, rfl, hod⟩

theorem find_error_locator_cases (p : Nat) (synd : List Nat) :
    (∃ loc, find_error_locator p synd = RSRes.ok loc) ∨
    find_error_locator p synd = RSRes.fail 2 := by
  obtain ⟨s, hs, _⟩ := foldl_invariant
    (fun st : Option BMState => ∃ s, st = some s ∧ s.old_discrepancy ≠ 0)
    (bmStep synd) (fun st n h => bmStep_inv synd st n h) (List.range p)
    (some ⟨[1], [1], 0, 1, 1⟩) ⟨_, rfl, one_ne_zero⟩
  unfold find_error_locator
  simp only [hs]
  by_cases h : p / 2 < s.locator_degree
  · right
    rw [if_pos h]
  · left
    exact ⟨_, by rw [if_neg h]⟩

theorem find_error_positions_cases (locator : List Nat) (data_len : Nat) :
    (∃ ps, find_error_positions locator data_len = RSRes.ok ps ∧ ∀ x ∈ ps, x < data_len) ∨
    find_error_positions locator data_len = RSRes.fail 3 := by
  have hfold : ∃ ps, (List.range data_len).foldl (fun acc i =>
      match acc with
      | none => none
      | some ps =>
        match fastInv (alphaPow (i % 256)) with
        | none => none
        | some alpha_inv =>
          if evalPoly locator alpha_inv = 0 then some (ps ++ [i]) else some ps)
      (some []) = some ps ∧ ∀ x ∈ ps, x < data_len := by
    apply foldl_invariant_mem
      (fun acc : Option (List Nat) => ∃ ps, acc = some ps ∧ ∀ x ∈ ps, x < data_len)
    · rintro acc i hmem ⟨ps, rfl, hps⟩
      have hi : fastInv (alphaPow (i % 256)) = some (fastInvT (alphaPow (i % 256))) := by
        unfold fastInv
        rw [if_neg (alphaPow_ne_zero _)]
      show ∃ ps', (match fastInv (alphaPow (i % 256)) with
        | none => none
        | some alpha_inv =>
          if evalPoly locator alpha_inv = 0 then some (ps ++ [i]) else some ps) =
          some ps' ∧ ∀ x ∈ ps', x < data_len
      simp only [hi]
      by_cases he : evalPoly locator (fastInvT (alphaPow (i % 256))) = 0
      · rw [if_pos he]
        refine ⟨ps ++ [i], rfl, fun x hx => ?_⟩
        rcases List.mem_append.mp hx with h | h
        · exact hps x h
        · have h1 := List.mem_singleton.mp h
          have h2 := List.mem_range.mp hmem
          omega
      · rw [if_neg he]
        exact ⟨ps, rfl, hps⟩
    · exact ⟨[], rfl, fun x hx => absurd hx (List.not_mem_nil x)⟩
  obtain ⟨ps, hps, hlt⟩ := hfold
  unfold find_error_positions
  simp only [hps]
  by_cases h : locator.length - 1 < ps.length
  · right
    rw [if_pos h]
  · left
    exact ⟨ps, by rw [if_neg h], hlt⟩

theorem correct_errors_some (data positions magnitudes : List Nat)
    (h : ∀ x ∈ positions, x < data.length) :
    ∃ c, correct_errors data positions magnitudes = some c ∧ c.length = data.length := by
  unfold correct_errors
  apply foldl_invariant_mem
    (fun acc : Option (List Nat) => ∃ c, acc = some c ∧ c.length = data.length)
  · rintro acc ⟨pos, mg⟩ hmem ⟨c, rfl, hc⟩
    have hpos : pos < data.length := h pos (List.of_mem_zip hmem).1
    show ∃ c', (if pos < c.length then some (c.set pos (gadd (c.getD pos 0) mg)) else none) =
      some c' ∧ c'.length = data.length
    rw [if_pos (by rw [hc]; exact hpos)]
    exact ⟨_, rfl, by rw [List.length_set]; exact hc⟩
  · exact ⟨data, rfl, rfl⟩

/-- **C7 (counterexample).** `decode` does panic: on the in-spec input
`p = 1`, `data = []` (all syndromes vacuously zero) the slice
`data[control_count..]` is out of bounds, and on `p = 4`,
`data = [128, 59, 84, 184]` (length 4 ≤ 255) the Forney step divides by a
zero locator-derivative value. -/
theorem C7_decode_counterexample :
    rsDecode 1 [] = RSRes.panicOther ∧
    rsDecode 4 [128, 59, 84, 184] = RSRes.panicDiv := by
  refine ⟨by decide!, by decide!⟩

/-- **C7 (amended).** For `p ≤ len(data) ≤ 255`, `decode` returns
`len(data) - p` bytes on success, or one of the typed failures 2–4 (locator
degree too large, too many Chien roots, nonzero post-correction syndromes),
or panics on the division by zero in the Forney step — but never hits any
other panic, and never reports failure 1 (input too long). -/
theorem C7_decode_amended (p : Nat) (data : List Nat)
    (hlen : data.length ≤ 255) (hp : p ≤ data.length) :
    (∃ res, rsDecode p data = RSRes.ok res ∧ res.length = data.length - p) ∨
    (∃ k, rsDecode p data = RSRes.fail k ∧ 2 ≤ k ∧ k ≤ 4) ∨
    rsDecode p data = RSRes.panicDiv := by
  unfold rsDecode
  rw [if_neg (by omega)]
  by_cases hs : ((calculateSyndromes p data).all (· == 0)) = true
  · rw [if_pos hs, if_pos hp]
    left
    exact ⟨_, rfl, by rw [List.length_drop]⟩
  · rw [if_neg hs]
    rcases find_error_locator_cases p (calculateSyndromes p data) with ⟨loc, hloc⟩ | hloc
    · rw [hloc, RSRes.bind_ok]
      rcases find_error_positions_cases loc data.length with ⟨ps, hps, hplt⟩ | hps
      · rw [hps, RSRes.bind_ok]
        cases hmag : find_error_magnitudes p (calculateSyndromes p data) loc ps with
        | none =>
          simp only [hmag]
          right; right
          trivial
        | some mags =>
          simp only [hmag]
          obtain ⟨c, hc, hclen⟩ := correct_errors_some data ps mags hplt
          simp only [hc]
          by_cases hafter : ((calculateSyndromes p c).any (· != 0)) = true
          · rw [if_pos hafter]
            right; left
            exact ⟨4, rfl, by omega, by omega⟩
          · rw [if_neg hafter, if_pos (by omega)]
            left
            exact ⟨_, rfl, by rw [List.length_drop, hclen]⟩
      · rw [hps, RSRes.bind_fail]
        right; left
        exact ⟨3, rfl, by omega, by omega⟩
    · rw [hloc, RSRes.bind_fail]
      right; left
      exact ⟨2, rfl, by omega, by omega⟩

/-- Closed-form witness for `C7_decode_amended` at `p = 4`,
`data = [1, 2, 3, 7, 9, 4, 5]`. -/
theorem C7_decode_amended_witness :
    (∃ res, rsDecode 4 [1, 2, 3, 7, 9, 4, 5] = RSRes.ok res ∧
      res.length = [1, 2, 3, 7, 9, 4, 5].length - 4) ∨
    (∃ k, rsDecode 4 [1, 2, 3, 7, 9, 4, 5] = RSRes.fail k ∧ 2 ≤ k ∧ k ≤ 4) ∨
    rsDecode 4 [1, 2, 3, 7, 9, 4, 5] = RSRes.panicDiv :=
  C7_decode_amended 4 [1, 2, 3, 7, 9, 4, 5] (by decide) (by decide)

/-! ### `HuffmanTree::restore_from_word_code` and the Huffman codec (C10, C3) -/

/-- The restored Huffman tree: `eleaf` is the placeholder
`Leaf { index: usize::MAX, word: 0 }`, `leaf w` a placed leaf for word `w`
(probabilities and counts carry no information here and are dropped). -/
inductive RTree where
  | eleaf : RTree
  | leaf : Nat → RTree
  | node : RTree → RTree → RTree
deriving DecidableEq

/-- The walk of `restore_from_word_code` for one `(word, code)` entry:
descend bit by bit (replacing an empty leaf child by a fresh node before
stepping into it), bail out (`none`) when standing on any `Leaf` with bits
remaining, and overwrite the final position with `Leaf { word }`. -/
def insertCode (t : RTree) (word : Nat) : List Bool → Option RTree
  | [] => some (RTree.leaf word)
  | bit :: rest =>
    match t with
    | RTree.node l r =>
      if bit then
        match insertCode (if r = RTree.eleaf then RTree.node RTree.eleaf RTree.eleaf else r)
            word rest with
        | none => none
        | some r' => some (RTree.node l r')
      else
        match insertCode (if l = RTree.eleaf then RTree.node RTree.eleaf RTree.eleaf else l)
            word rest with
        | none => none
        | some l' => some (RTree.node l' r)
    | _ => none

/-- Processing one `(word, code)` pair of the iteration; a failed earlier
entry short-circuits. -/
def restoreStep (acc : Option RTree) (wc : Nat × List Bool) : Option RTree :=
  match acc with
  | none => none
  | some t => insertCode t wc.1 wc.2

/-- `HuffmanTree::restore_from_word_code`, with the `HashMap` iteration
fixed to the order of the given association list: start from
`Node { left: empty leaf, right: empty leaf }` and insert every code. -/
def restore_from_word_code (codes : List (Nat × List Bool)) : Option RTree :=
  if codes.isEmpty then none
  else codes.foldl restoreStep (some (RTree.node RTree.eleaf RTree.eleaf))

/-- Subtree of `t` reached by following a bit path (no empty-leaf expansion). -/
def subtreeAt (t : RTree) : List Bool → Option RTree
  | [] => some t
  | b :: bs =>
    match t with
    | RTree.node l r => subtreeAt (if b then r else l) bs
    | _ => none

/-- `c1` is a prefix of `c2`. -/
def isCodePre (c1 c2 : List Bool) : Prop := ∃ d, c2 = c1 ++ d

theorem subtreeAt_append (p q : List Bool) :
    ∀ t : RTree, subtreeAt t (p ++ q) =
      match subtreeAt t p with
      | none => none
      | some u => subtreeAt u q := by
  induction p with
  | nil => intro t; rfl
  | cons b bs ih =>
    intro t
    cases t with
    | eleaf => rfl
    | leaf w => rfl
    | node l r =>
      show subtreeAt (if b then r else l) (bs ++ q) = _
      rw [ih (if b then r else l)]
      rfl

theorem subtreeAt_eleaf_ne_leaf (q : List Bool) (w0 : Nat) :
    subtreeAt RTree.eleaf q ≠ some (RTree.leaf w0) := by
  cases q with
  | nil => simp [subtreeAt]
  | cons b bs => simp [subtreeAt]

theorem insertCode_subtreeAt (w : Nat) :
    ∀ (c : List Bool) (t t' : RTree), insertCode t w c = some t' →
      subtreeAt t' c = some (RTree.leaf w) := by
  intro c
  induction c with
  | nil =>
    intro t t' h
    simp only [insertCode, Option.some.injEq] at h
    rw [← h]
    rfl
  | cons b bs ih =>
    intro t t' h
    cases t with
    | eleaf => simp [insertCode] at h
    | leaf w0 => simp [insertCode] at h
    | node l r =>
      cases b with
      | true =>
        simp only [insertCode, if_true] at h
        cases hr : insertCode (if r = RTree.eleaf then RTree.node RTree.eleaf RTree.eleaf
            else r) w bs with
        | none => rw [hr] at h; cases h
        | some r' =>
          rw [hr] at h
          simp only [Option.some.injEq] at h
          rw [← h]
          show subtreeAt r' bs = some (RTree.leaf w)
          exact ih _ _ hr
      | false =>
        simp only [insertCode, if_false, Bool.false_eq_true] at h
        cases hl : insertCode (if l = RTree.eleaf then RTree.node RTree.eleaf RTree.eleaf
            else l) w bs with
        | none => rw [hl] at h; cases h
        | some l' =>
          rw [hl] at h
          simp only [Option.some.injEq] at h
          rw [← h]
          show subtreeAt l' bs = some (RTree.leaf w)
          exact ih _ _ hl

theorem insertCode_none_of_leaf (w : Nat) :
    ∀ (c : List Bool) (t : RTree) (k : Nat) (w0 : Nat), k < c.length →
      subtreeAt t (c.take k) = some (RTree.leaf w0) → insertCode t w c = none := by
  intro c
  induction c with
  | nil =>
    intro t k w0 hk
    simp at hk
  | cons b bs ih =>
    intro t k w0 hk hsub
    cases k with
    | zero =>
      simp only [List.take_zero] at hsub
      have ht : t = RTree.leaf w0 := by
        have : some t = some (RTree.leaf w0) := hsub
        exact Option.some.inj this
      subst ht
      rfl
    | succ k =>
      rw [List.take_succ_cons] at hsub
      cases t with
      | eleaf => simp [subtreeAt] at hsub
      | leaf w1 => simp [subtreeAt] at hsub
      | node l r =>
        have hsub' : subtreeAt (if b then r else l) (bs.take k) = some (RTree.leaf w0) :=
          hsub
        have hchild : (if b then r else l) ≠ RTree.eleaf := by
          intro he
          rw [he] at hsub'
          exact subtreeAt_eleaf_ne_leaf _ _ hsub'
        cases b with
        | true =>
          have hne : r ≠ RTree.eleaf := by simpa using hchild
          have hrec : insertCode r w bs = none :=
            ih r k w0 (by simpa using hk) (by simpa using hsub')
          simp only [insertCode, if_true, if_neg hne, hrec]
        | false =>
          have hne : l ≠ RTree.eleaf := by simpa using hchild
          have hrec : insertCode l w bs = none :=
            ih l k w0 (by simpa using hk) (by simpa using hsub')
          simp only [insertCode, if_false, Bool.false_eq_true, if_neg hne, hrec]

theorem insertCode_preserve (w : Nat) :
    ∀ (c : List Bool) (t t' : RTree) (p : List Bool) (w0 : Nat),
      insertCode t w c = some t' → subtreeAt t p = some (RTree.leaf w0) →
      ¬ isCodePre p c → ¬ isCodePre c p → subtreeAt t' p = some (RTree.leaf w0) := by
  intro c
  induction c with
  | nil =>
    intro t t' p w0 h hp hpc hcp
    exact absurd ⟨p, rfl⟩ hcp
  | cons b bs ih =>
    intro t t' p w0 h hp hpc hcp
    cases t with
    | eleaf => simp [insertCode] at h
    | leaf w1 => simp [insertCode] at h
    | node l r =>
      cases p with
      | nil => simp [subtreeAt] at hp
      | cons b' ps =>
        cases b with
        | true =>
          simp only [insertCode, if_true] at h
          cases hr : insertCode (if r = RTree.eleaf then RTree.node RTree.eleaf RTree.eleaf
              else r) w bs with
          | none => rw [hr] at h; cases h
          | some r' =>
            rw [hr] at h
            simp only [Option.some.injEq] at h
            subst h
            cases b' with
            | false =>
              have hp' : subtreeAt l ps = some (RTree.leaf w0) := by
                simpa [subtreeAt] using hp
              simpa [subtreeAt] using hp'
            | true =>
              have hp' : subtreeAt r ps = some (RTree.leaf w0) := by
                simpa [subtreeAt] using hp
              have hrne : r ≠ RTree.eleaf := fun he =>
                subtreeAt_eleaf_ne_leaf ps w0 (he ▸ hp')
              rw [if_neg hrne] at hr
              have hres : subtreeAt r' ps = some (RTree.leaf w0) := by
                apply ih r r' ps w0 hr hp'
                · rintro ⟨d, hd⟩
                  exact hpc ⟨d, by rw [hd]; rfl⟩
                · rintro ⟨d, hd⟩
                  exact hcp ⟨d, by rw [hd]; rfl⟩
              simpa [subtreeAt] using hres
        | false =>
          simp only [insertCode, if_false, Bool.false_eq_true] at h
          cases hl : insertCode (if l = RTree.eleaf then RTree.node RTree.eleaf RTree.eleaf
              else l) w bs with
          | none => rw [hl] at h; cases h
          | some l' =>
            rw [hl] at h
            simp only [Option.some.injEq] at h
            subst h
            cases b' with
            | true =>
              have hp' : subtreeAt r ps = some (RTree.leaf w0) := by
                simpa [subtreeAt] using hp
              simpa [subtreeAt] using hp'
            | false =>
              have hp' : subtreeAt l ps = some (RTree.leaf w0) := by
                simpa [subtreeAt] using hp
              have hlne : l ≠ RTree.eleaf := fun he =>
                subtreeAt_eleaf_ne_leaf ps w0 (he ▸ hp')
              rw [if_neg hlne] at hl
              have hres : subtreeAt l' ps = some (RTree.leaf w0) := by
                apply ih l l' ps w0 hl hp'
                · rintro ⟨d, hd⟩
                  exact hpc ⟨d, by rw [hd]; rfl⟩
                · rintro ⟨d, hd⟩
                  exact hcp ⟨d, by rw [hd]; rfl⟩
              simpa [subtreeAt] using hres

theorem restore_foldl_none : ∀ l : List (Nat × List Bool), List.foldl restoreStep none l = none := by
  intro l
  induction l with
  | nil => rfl
  | cons x xs ih => exact ih

theorem restoreStep_Q (c1 : List Bool) (acc : Option RTree) (wc : Nat × List Bool)
    (h : acc = none ∨ ∃ t p w', acc = some t ∧ isCodePre p c1 ∧
      subtreeAt t p = some (RTree.leaf w')) :
    restoreStep acc wc = none ∨ ∃ t p w', restoreStep acc wc = some t ∧ isCodePre p c1 ∧
      subtreeAt t p = some (RTree.leaf w') := by
  rcases h with rfl | ⟨t, p, w', rfl, hpp, hleaf⟩
  · left
    rfl
  · cases hI : insertCode t wc.1 wc.2 with
    | none =>
      left
      exact hI
    | some t' =>
      right
      by_cases h1 : isCodePre wc.2 p
      · refine ⟨t', wc.2, wc.1, hI, ?_, insertCode_subtreeAt _ _ _ _ hI⟩
        obtain ⟨d1, hd1⟩ := h1
        obtain ⟨d2, hd2⟩ := hpp
        exact ⟨d1 ++ d2, by rw [hd2, hd1, List.append_assoc]⟩
      · by_cases h2 : isCodePre p wc.2
        · exfalso
          obtain ⟨d2, hd2⟩ := h2
          have hdne : d2 ≠ [] := by
            rintro rfl
            have hpe : wc.2 = p := by simpa using hd2
            exact h1 ⟨[], by rw [List.append_nil]; exact hpe.symm⟩
          have hfail : insertCode t wc.1 wc.2 = none := by
            apply insertCode_none_of_leaf wc.1 wc.2 t p.length w'
            · rw [hd2, List.length_append]
              have := List.length_pos.mpr hdne
              omega
            · rw [hd2, List.take_left]
              exact hleaf
          rw [hfail] at hI
          cases hI
        · exact ⟨t', p, w', hI, hpp,
            insertCode_preserve wc.1 wc.2 t t' p w' hI hleaf h2 h1⟩

/-- **C10 (counterexample).** The code table `{98 ↦ "00", 97 ↦ "0"}`, iterated
in the order `(98, "00")` then `(97, "0")`, has a code (`"0"`) that is a
proper prefix of another (`"00"`), yet `restore_from_word_code` succeeds:
inserting `"0"` second silently overwrites the internal node holding 98's
leaf. -/
theorem C10_restore_counterexample :
    ([false] : List Bool) ++ [false] = [false, false] ∧
    restore_from_word_code [(98, [false, false]), (97, [false])] =
      some (RTree.node (RTree.leaf 97) RTree.eleaf) := ⟨rfl, by decide⟩

/-- **C10 (amended).** `restore_from_word_code` fails whenever some EARLIER
entry's code is a proper prefix of a LATER entry's code (the walk of the later
code passes through the placed leaf); the converse prefix order is silently
absorbed, as the counterexample shows. -/
theorem C10_restore_amended (pre mid post : List (Nat × List Bool)) (w1 w2 : Nat)
    (c1 d : List Bool) (hd : d ≠ []) :
    restore_from_word_code (pre ++ (w1, c1) :: (mid ++ (w2, c1 ++ d) :: post)) = none := by
  unfold restore_from_word_code
  rw [if_neg (by simp)]
  rw [List.foldl_append, List.foldl_cons]
  cases h0 : List.foldl restoreStep (some (RTree.node RTree.eleaf RTree.eleaf)) pre with
  | none =>
    rw [show restoreStep none (w1, c1) = none from rfl]
    exact restore_foldl_none _
  | some t0 =>
    rw [show restoreStep (some t0) (w1, c1) = insertCode t0 w1 c1 from rfl]
    cases h1 : insertCode t0 w1 c1 with
    | none =>
      rw [restore_foldl_none]
    | some t1 =>
      have hQ := foldl_invariant
        (fun acc : Option RTree => acc = none ∨ ∃ t p w', acc = some t ∧ isCodePre p c1 ∧
          subtreeAt t p = some (RTree.leaf w'))
        restoreStep (fun acc wc h => restoreStep_Q c1 acc wc h) mid (some t1)
        (Or.inr ⟨t1, c1, w1, rfl, ⟨[], by rw [List.append_nil]⟩,
          insertCode_subtreeAt w1 c1 t0 t1 h1⟩)
      rw [List.foldl_append]
      rcases hQ with hnone | ⟨t2, p, w', hacc, hpp, hleaf⟩
      · rw [hnone]
        exact restore_foldl_none _
      · rw [hacc, List.foldl_cons,
          show restoreStep (some t2) (w2, c1 ++ d) = insertCode t2 w2 (c1 ++ d) from rfl]
        obtain ⟨dp, hdp⟩ := hpp
        have hfail : insertCode t2 w2 (c1 ++ d) = none := by
          apply insertCode_none_of_leaf w2 (c1 ++ d) t2 p.length w'
          · rw [List.length_append, hdp, List.length_append]
            have := List.length_pos.mpr hd
            omega
          · rw [hdp, List.append_assoc, List.take_left]
            exact hleaf
        rw [hfail]
        exact restore_foldl_none _

/-- Closed-form witness for `C10_restore_amended`: the same conflicting table
processed in the failing order `(97, "0")` before `(98, "00")`. -/
theorem C10_restore_amended_witness :
    restore_from_word_code ([] ++ (97, [false]) :: ([] ++ (98, [false] ++ [false]) :: [])) =
      none :=
  C10_restore_amended [] [] [] 97 98 [false] [false] (by decide)

/-! ### The Huffman byte codec pipeline (C3) -/

/-- Packing one 8-bit chunk of `Encoder::convert_to_bytes`:
`byte <<= 1; if '1' { byte |= 1 }` over a `u8`. -/
def byteOfBits (bits : List Bool) : Nat :=
  bits.foldl (fun byte b => (byte * 2 + (if b then 1 else 0)) % 256) 0

/-- One byte of `utils::convert_to_string`: bits 7 down to 0, MSB first. -/
def byteToBits (b : Nat) : List Bool :=
  (List.range 8).map (fun k => b &&& 2 ^ (7 - k) != 0)

/-- `utils::convert_to_string`: each byte expanded MSB-first. -/
def convert_to_string : List Nat → List Bool
  | [] => []
  | b :: rest => byteToBits b ++ convert_to_string rest

/-- The chunking loop of `Encoder::convert_to_bytes` (always called on a
bit string padded to a multiple of 8). -/
def packBytes : List Bool → List Nat
  | b0 :: b1 :: b2 :: b3 :: b4 :: b5 :: b6 :: b7 :: rest =>
    byteOfBits [b0, b1, b2, b3, b4, b5, b6, b7] :: packBytes rest
  | _ => []

theorem pack8 : ∀ b0 b1 b2 b3 b4 b5 b6 b7 : Bool,
    byteToBits (byteOfBits [b0, b1, b2, b3, b4, b5, b6, b7]) =
      [b0, b1, b2, b3, b4, b5, b6, b7] := by decide

theorem exists_cons_of_length_pos {α : Type} {l : List α} (h : 0 < l.length) :
    ∃ b t, l = b :: t := by
  cases l with
  | nil => simp at h
  | cons b t => exact ⟨b, t, rfl⟩

theorem unpack_pack : ∀ (n : Nat) (bits : List Bool), bits.length = 8 * n →
    convert_to_string (packBytes bits) = bits := by
  intro n
  induction n with
  | zero =>
    intro bits h
    cases bits with
    | nil => rfl
    | cons b bs => simp at h
  | succ k ih =>
    intro bits h
    obtain ⟨b0, t0, rfl⟩ := exists_cons_of_length_pos (l := bits) (by omega)
    obtain ⟨b1, t1, rfl⟩ := exists_cons_of_length_pos (l := t0) (by simp at h; omega)
    obtain ⟨b2, t2, rfl⟩ := exists_cons_of_length_pos (l := t1) (by simp at h; omega)
    obtain ⟨b3, t3, rfl⟩ := exists_cons_of_length_pos (l := t2) (by simp at h; omega)
    obtain ⟨b4, t4, rfl⟩ := exists_cons_of_length_pos (l := t3) (by simp at h; omega)
    obtain ⟨b5, t5, rfl⟩ := exists_cons_of_length_pos (l := t4) (by simp at h; omega)
    obtain ⟨b6, t6, rfl⟩ := exists_cons_of_length_pos (l := t5) (by simp at h; omega)
    obtain ⟨b7, rest, rfl⟩ := exists_cons_of_length_pos (l := t6) (by simp at h; omega)
    simp only [List.length_cons] at h
    show convert_to_string (byteOfBits [b0, b1, b2, b3, b4, b5, b6, b7] :: packBytes rest) =
      _
    show byteToBits (byteOfBits [b0, b1, b2, b3, b4, b5, b6, b7]) ++
      convert_to_string (packBytes rest) = _
    rw [pack8, ih rest (by omega)]
    rfl


/-- `HashMap::get` on the word→code table, as lookup in the iteration list. -/
def codeOf (entries : List (Nat × List Bool)) (b : Nat) : Option (List Bool) :=
  (entries.find? (fun wc => wc.1 == b)).map (fun wc => wc.2)

/-- `HuffmanArchiver::convert_to_string` (the encoder): concatenate the code
of every byte; an unknown byte panics (`none`). -/
def convert_to_string_enc (entries : List (Nat × List Bool)) : List Nat → Option (List Bool)
  | [] => some []
  | b :: rest =>
    match codeOf entries b, convert_to_string_enc entries rest with
    | some c, some cs => some (c ++ cs)
    | _, _ => none

/-- `Encoder::encode_bytes`: encode to a bit string, zero-pad to a multiple
of 8, pack MSB-first. -/
def encode_bytes (entries : List (Nat × List Bool)) (x : List Nat) : Option (List Nat) :=
  match convert_to_string_enc entries x with
  | none => none
  | some bits => some (packBytes (bits ++ List.replicate ((8 - bits.length % 8) % 8) false))

/-- `HuffmanDecoder::decode_string`: walk the restored tree; stepping onto any
`Leaf` (a placed one, or the empty placeholder whose `word` field is `0`)
emits its word and resets to the root; `left()`/`right()` on a leaf is the
"Invalid bit string" error (`none`). -/
def decodeLoop (root : RTree) : List Bool → RTree → Option (List Nat)
  | [], _ => some []
  | b :: bs, cur =>
    match cur with
    | RTree.node l r =>
      match (if b then r else l) with
      | RTree.leaf w =>
        match decodeLoop root bs root with
        | none => none
        | some ws => some (w :: ws)
      | RTree.eleaf =>
        match decodeLoop root bs root with
        | none => none
        | some ws => some (0 :: ws)
      | RTree.node l' r' => decodeLoop root bs (RTree.node l' r')
    | _ => none

/-- `Decoder::decode_bytes`: bytes to bit string, then the tree walk. -/
def decode_bytes (t : RTree) (bytes : List Nat) : Option (List Nat) :=
  decodeLoop t (convert_to_string bytes) t

/-- `FileDecoder::decode_and_write`: decode, then truncate to the stored
original size when longer. -/
def decode_and_write (t : RTree) (bytes : List Nat) (original_size : Nat) :
    Option (List Nat) :=
  match decode_bytes t bytes with
  | none => none
  | some decoded =>
    some (if original_size < decoded.length then decoded.take original_size else decoded)

/-- The shape of a built Huffman tree (`HuffmanTree::build` output: words at
the leaves; probabilities dropped). -/
inductive HTree where
  | leaf : Nat → HTree
  | node : HTree → HTree → HTree

/-- `HuffmanTree::build_word_code`: the path (0 = left, 1 = right) of every
leaf, as the list of `(word, code)` pairs. -/
def buildWordCode : HTree → List Bool → List (Nat × List Bool)
  | HTree.leaf w, path => [(w, path)]
  | HTree.node l r, path =>
    buildWordCode l (path ++ [false]) ++ buildWordCode r (path ++ [true])

/-- **C3 (counterexample).** For `x = [0]` (a single distinct byte),
`HuffmanTree::build` returns a lone `Leaf`, whose code table is `{0 ↦ ""}`.
Encoding produces the empty bit string, hence zero bytes; decoding them gives
`[]`, and truncation to the stored length 1 cannot recover `[0]`. -/
theorem C3_roundtrip_counterexample :
    buildWordCode (HTree.leaf 0) [] = [(0, [])] ∧
    encode_bytes [(0, [])] [0] = some [] ∧
    restore_from_word_code [(0, [])] = some (RTree.leaf 0) ∧
    decode_and_write (RTree.leaf 0) [] 1 = some [] ∧
    ([] : List Nat) ≠ [0] := by
  refine ⟨rfl, by decide, by decide, by decide, by decide⟩

theorem insert_fresh (w : Nat) :
    ∀ bs : List Bool, ∃ t',
      insertCode (RTree.node RTree.eleaf RTree.eleaf) w bs = some t' := by
  intro bs
  induction bs with
  | nil => exact ⟨RTree.leaf w, rfl⟩
  | cons b rest ih =>
    obtain ⟨t'', ht''⟩ := ih
    cases b with
    | true =>
      refine ⟨RTree.node RTree.eleaf t'', ?_⟩
      simp [insertCode, ht'']
    | false =>
      refine ⟨RTree.node t'' RTree.eleaf, ?_⟩
      simp [insertCode, ht'']

theorem fresh_no_leaf (q : List Bool) (w' : Nat) :
    subtreeAt (RTree.node RTree.eleaf RTree.eleaf) q ≠ some (RTree.leaf w') := by
  cases q with
  | nil => simp [subtreeAt]
  | cons b bs =>
    show subtreeAt (if b then RTree.eleaf else RTree.eleaf) bs ≠ _
    cases b with
    | true => exact subtreeAt_eleaf_ne_leaf bs w'
    | false => exact subtreeAt_eleaf_ne_leaf bs w'

theorem insert_ok (w : Nat) :
    ∀ (c : List Bool) (l r : RTree),
      (∀ k w', k < c.length → subtreeAt (RTree.node l r) (c.take k) ≠
        some (RTree.leaf w')) →
      ∃ t', insertCode (RTree.node l r) w c = some t' := by
  intro c
  induction c with
  | nil => exact fun l r _ => ⟨RTree.leaf w, rfl⟩
  | cons b bs ih =>
    intro l r h
    cases b with
    | true =>
      cases hr : r with
      | eleaf =>
        obtain ⟨t'', ht''⟩ := insert_fresh w bs
        refine ⟨RTree.node l t'', ?_⟩
        simp [insertCode, ht'']
      | leaf w1 =>
        cases bs with
        | nil =>
          refine ⟨RTree.node l (RTree.leaf w), ?_⟩
          simp [insertCode]
        | cons b' bs' =>
          exfalso
          apply h 1 w1 (by simp)
          rw [hr]
          rfl
      | node rl rr =>
        have h' : ∀ k w', k < bs.length →
            subtreeAt (RTree.node rl rr) (bs.take k) ≠ some (RTree.leaf w') := by
          intro k w' hk hsub
          apply h (k + 1) w' (by simpa using hk)
          rw [List.take_succ_cons]
          show subtreeAt r (bs.take k) = _
          rw [hr]
          exact hsub
        obtain ⟨t'', ht''⟩ := ih rl rr h'
        refine ⟨RTree.node l t'', ?_⟩
        simp [insertCode, ht'']
    | false =>
      cases hl : l with
      | eleaf =>
        obtain ⟨t'', ht''⟩ := insert_fresh w bs
        refine ⟨RTree.node t'' r, ?_⟩
        simp [insertCode, ht'']
      | leaf w1 =>
        cases bs with
        | nil =>
          refine ⟨RTree.node (RTree.leaf w) r, ?_⟩
          simp [insertCode]
        | cons b' bs' =>
          exfalso
          apply h 1 w1 (by simp)
          rw [hl]
          rfl
      | node ll lr =>
        have h' : ∀ k w', k < bs.length →
            subtreeAt (RTree.node ll lr) (bs.take k) ≠ some (RTree.leaf w') := by
          intro k w' hk hsub
          apply h (k + 1) w' (by simpa using hk)
          rw [List.take_succ_cons]
          show subtreeAt l (bs.take k) = _
          rw [hl]
          exact hsub
        obtain ⟨t'', ht''⟩ := ih ll lr h'
        refine ⟨RTree.node t'' r, ?_⟩
        simp [insertCode, ht'']

theorem insertCode_leaf_source (w : Nat) :
    ∀ (c : List Bool) (t t' : RTree) (p : List Bool) (w' : Nat),
      insertCode t w c = some t' → subtreeAt t' p = some (RTree.leaf w') →
      subtreeAt t p = some (RTree.leaf w') ∨ p = c := by
  intro c
  induction c with
  | nil =>
    intro t t' p w' h hp
    simp only [insertCode, Option.some.injEq] at h
    rw [← h] at hp
    cases p with
    | nil => right; rfl
    | cons b ps => simp [subtreeAt] at hp
  | cons b bs ih =>
    intro t t' p w' h hp
    cases t with
    | eleaf => simp [insertCode] at h
    | leaf w1 => simp [insertCode] at h
    | node l r =>
      cases b with
      | true =>
        simp only [insertCode, if_true] at h
        cases hr : insertCode (if r = RTree.eleaf then RTree.node RTree.eleaf RTree.eleaf
            else r) w bs with
        | none => rw [hr] at h; cases h
        | some r' =>
          rw [hr] at h
          simp only [Option.some.injEq] at h
          subst h
          cases p with
          | nil => simp [subtreeAt] at hp
          | cons b' ps =>
            cases b' with
            | false =>
              left
              have hp' : subtreeAt l ps = some (RTree.leaf w') := by
                simpa [subtreeAt] using hp
              simpa [subtreeAt] using hp'
            | true =>
              have hp' : subtreeAt r' ps = some (RTree.leaf w') := by
                simpa [subtreeAt] using hp
              rcases ih _ _ _ _ hr hp' with hold | rfl
              · by_cases he : r = RTree.eleaf
                · rw [if_pos he] at hold
                  exact absurd hold (fresh_no_leaf ps w')
                · rw [if_neg he] at hold
                  left
                  simpa [subtreeAt] using hold
              · right
                rfl
      | false =>
        simp only [insertCode, if_false, Bool.false_eq_true] at h
        cases hl : insertCode (if l = RTree.eleaf then RTree.node RTree.eleaf RTree.eleaf
            else l) w bs with
        | none => rw [hl] at h; cases h
        | some l' =>
          rw [hl] at h
          simp only [Option.some.injEq] at h
          subst h
          cases p with
          | nil => simp [subtreeAt] at hp
          | cons b' ps =>
            cases b' with
            | true =>
              left
              have hp' : subtreeAt r ps = some (RTree.leaf w') := by
                simpa [subtreeAt] using hp
              simpa [subtreeAt] using hp'
            | false =>
              have hp' : subtreeAt l' ps = some (RTree.leaf w') := by
                simpa [subtreeAt] using hp
              rcases ih _ _ _ _ hl hp' with hold | rfl
              · by_cases he : l = RTree.eleaf
                · rw [if_pos he] at hold
                  exact absurd hold (fresh_no_leaf ps w')
                · rw [if_neg he] at hold
                  left
                  simpa [subtreeAt] using hold
              · right
                rfl

theorem insertCode_node (w : Nat) (b : Bool) (bs : List Bool) (t t' : RTree)
    (h : insertCode t w (b :: bs) = some t') : ∃ l r, t' = RTree.node l r := by
  cases t with
  | eleaf => simp [insertCode] at h
  | leaf w1 => simp [insertCode] at h
  | node l r =>
    cases b with
    | true =>
      simp only [insertCode, if_true] at h
      cases hr : insertCode (if r = RTree.eleaf then RTree.node RTree.eleaf RTree.eleaf
          else r) w bs with
      | none => rw [hr] at h; cases h
      | some r' =>
        rw [hr] at h
        simp only [Option.some.injEq] at h
        exact ⟨l, r', h.symm⟩
    | false =>
      simp only [insertCode, if_false, Bool.false_eq_true] at h
      cases hl : insertCode (if l = RTree.eleaf then RTree.node RTree.eleaf RTree.eleaf
          else l) w bs with
      | none => rw [hl] at h; cases h
      | some l' =>
        rw [hl] at h
        simp only [Option.some.injEq] at h
        exact ⟨l', r, h.symm⟩

theorem restore_fold_inv :
    ∀ (rest : List (Nat × List Bool)) (t : RTree) (done : List (Nat × List Bool)),
      (∃ l r, t = RTree.node l r) →
      (∀ wc, wc ∈ done → subtreeAt t wc.2 = some (RTree.leaf wc.1)) →
      (∀ p w', subtreeAt t p = some (RTree.leaf w') → ∃ wc, wc ∈ done ∧ wc.2 = p) →
      (∀ wc, wc ∈ rest → wc.2 ≠ []) →
      (∀ wc1 wc2, wc1 ∈ done → wc2 ∈ rest →
        ¬ isCodePre wc1.2 wc2.2 ∧ ¬ isCodePre wc2.2 wc1.2) →
      rest.Pairwise (fun a b => ¬ isCodePre a.2 b.2 ∧ ¬ isCodePre b.2 a.2) →
      ∃ t', List.foldl restoreStep (some t) rest = some t' ∧
        (∃ l r, t' = RTree.node l r) ∧
        (∀ wc, wc ∈ done → subtreeAt t' wc.2 = some (RTree.leaf wc.1)) ∧
        (∀ wc, wc ∈ rest → subtreeAt t' wc.2 = some (RTree.leaf wc.1)) := by
  intro rest
  induction rest with
  | nil =>
    intro t done hnode hdone _ _ _ _
    exact ⟨t, rfl, hnode, hdone, fun wc h => absurd h (List.not_mem_nil wc)⟩
  | cons e rest' ih =>
    intro t done hnode hdone hchar hne hsep hpw
    obtain ⟨l, r, rfl⟩ := hnode
    have hok : ∃ t1, insertCode (RTree.node l r) e.1 e.2 = some t1 := by
      apply insert_ok e.1 e.2 l r
      intro k w' hk hsub
      obtain ⟨wc0, hwc0, hwc0p⟩ := hchar _ _ hsub
      have := (hsep wc0 e hwc0 (List.mem_cons_self e rest')).1
      apply this
      rw [hwc0p]
      exact ⟨e.2.drop k, (List.take_append_drop k e.2).symm⟩
    obtain ⟨t1, ht1⟩ := hok
    have hstep : restoreStep (some (RTree.node l r)) e = some t1 := ht1
    have hnode1 : ∃ l1 r1, t1 = RTree.node l1 r1 := by
      obtain ⟨b, bs, hbs⟩ : ∃ b bs, e.2 = b :: bs := by
        cases hcc : e.2 with
        | nil => exact absurd hcc (hne e (List.mem_cons_self e rest'))
        | cons b bs => exact ⟨b, bs, rfl⟩
      rw [hbs] at ht1
      exact insertCode_node e.1 b bs _ _ ht1
    have hdone1 : ∀ wc, wc ∈ done ++ [e] → subtreeAt t1 wc.2 = some (RTree.leaf wc.1) := by
      intro wc hwc
      rcases List.mem_append.mp hwc with hm | hm
      · have hsepe := hsep wc e hm (List.mem_cons_self e rest')
        exact insertCode_preserve e.1 e.2 _ t1 wc.2 wc.1 ht1 (hdone wc hm)
          hsepe.1 hsepe.2
      · have heq : wc = e := List.mem_singleton.mp hm
        rw [heq]
        exact insertCode_subtreeAt e.1 e.2 _ t1 ht1
    have hchar1 : ∀ p w', subtreeAt t1 p = some (RTree.leaf w') →
        ∃ wc, wc ∈ done ++ [e] ∧ wc.2 = p := by
      intro p w' hp
      rcases insertCode_leaf_source e.1 e.2 _ t1 p w' ht1 hp with hold | rfl
      · obtain ⟨wc0, h1, h2⟩ := hchar p w' hold
        exact ⟨wc0, List.mem_append.mpr (Or.inl h1), h2⟩
      · exact ⟨e, List.mem_append.mpr (Or.inr (List.mem_singleton.mpr rfl)), rfl⟩
    have hne' : ∀ wc, wc ∈ rest' → wc.2 ≠ [] :=
      fun wc h => hne wc (List.mem_cons_of_mem e h)
    have hsep' : ∀ wc1 wc2, wc1 ∈ done ++ [e] → wc2 ∈ rest' →
        ¬ isCodePre wc1.2 wc2.2 ∧ ¬ isCodePre wc2.2 wc1.2 := by
      intro wc1 wc2 h1 h2
      rcases List.mem_append.mp h1 with hm | hm
      · exact hsep wc1 wc2 hm (List.mem_cons_of_mem e h2)
      · have heq : wc1 = e := List.mem_singleton.mp hm
        rw [heq]
        exact (List.pairwise_cons.mp hpw).1 wc2 h2
    obtain ⟨t', hfold, hnode', hdone', hrest'⟩ := ih t1 (done ++ [e]) hnode1 hdone1
      hchar1 hne' hsep' (List.pairwise_cons.mp hpw).2
    refine ⟨t', ?_, hnode', ?_, ?_⟩
    · rw [List.foldl_cons, hstep]
      exact hfold
    · intro wc hwc
      exact hdone' wc (List.mem_append.mpr (Or.inl hwc))
    · intro wc hwc
      rcases List.mem_cons.mp hwc with rfl | hm
      · exact hdone' wc (List.mem_append.mpr (Or.inr (List.mem_singleton.mpr rfl)))
      · exact hrest' wc hm

theorem restore_ok (entries : List (Nat × List Bool))
    (hne : entries ≠ []) (hcodes : ∀ wc, wc ∈ entries → wc.2 ≠ [])
    (hpf : entries.Pairwise (fun a b => ¬ isCodePre a.2 b.2 ∧ ¬ isCodePre b.2 a.2)) :
    ∃ t, restore_from_word_code entries = some t ∧ (∃ l r, t = RTree.node l r) ∧
      ∀ wc, wc ∈ entries → subtreeAt t wc.2 = some (RTree.leaf wc.1) := by
  unfold restore_from_word_code
  rw [if_neg (by simpa [List.isEmpty_iff] using hne)]
  obtain ⟨t', h1, h2, _, h4⟩ := restore_fold_inv entries
    (RTree.node RTree.eleaf RTree.eleaf) []
    ⟨_, _, rfl⟩ (fun wc h => absurd h (List.not_mem_nil wc))
    (fun p w' hp => absurd hp (fresh_no_leaf p w'))
    hcodes (fun wc1 wc2 h1 _ => absurd h1 (List.not_mem_nil wc1)) hpf
  exact ⟨t', h1, h2, h4⟩

theorem decode_code (root : RTree) (w : Nat) (rest : List Bool) :
    ∀ (c : List Bool) (cur : RTree), c ≠ [] →
      subtreeAt cur c = some (RTree.leaf w) →
      (∃ l r, cur = RTree.node l r) →
      decodeLoop root (c ++ rest) cur =
        match decodeLoop root rest root with
        | none => none
        | some ws => some (w :: ws) := by
  intro c
  induction c with
  | nil => intro cur hne; exact absurd rfl hne
  | cons b bs ih =>
    intro cur _ hsub hnode
    obtain ⟨l, r, rfl⟩ := hnode
    have hsub' : subtreeAt (if b then r else l) bs = some (RTree.leaf w) := hsub
    cases bs with
    | nil =>
      have hchild : (if b then r else l) = RTree.leaf w := Option.some.inj hsub'
      cases b with
      | true =>
        have : r = RTree.leaf w := by simpa using hchild
        rw [this]
        rfl
      | false =>
        have : l = RTree.leaf w := by simpa using hchild
        rw [this]
        rfl
    | cons b' bs' =>
      have hchild : ∃ cl cr, (if b then r else l) = RTree.node cl cr := by
        cases hc : (if b then r else l) with
        | eleaf => rw [hc] at hsub'; exact absurd hsub' (subtreeAt_eleaf_ne_leaf _ _)
        | leaf w1 => rw [hc] at hsub'; simp [subtreeAt] at hsub'
        | node cl cr => exact ⟨cl, cr, rfl⟩
      obtain ⟨cl, cr, hc⟩ := hchild
      rw [hc] at hsub'
      have hrec := ih (RTree.node cl cr) (by simp) hsub' ⟨cl, cr, rfl⟩
      cases b with
      | true =>
        have hr : r = RTree.node cl cr := by simpa using hc
        rw [hr]
        exact hrec
      | false =>
        have hl : l = RTree.node cl cr := by simpa using hc
        rw [hl]
        exact hrec

theorem decode_pad (root : RTree) (hroot : ∃ l r, root = RTree.node l r) :
    ∀ (n : Nat) (cur : RTree), (∃ l r, cur = RTree.node l r) →
      ∃ ws, decodeLoop root (List.replicate n false) cur = some ws := by
  intro n
  induction n with
  | zero => intro cur _; exact ⟨[], rfl⟩
  | succ k ih =>
    intro cur hnode
    obtain ⟨l, r, rfl⟩ := hnode
    have hred : decodeLoop root (List.replicate (k + 1) false) (RTree.node l r) =
        (match l with
        | RTree.leaf w =>
          (match decodeLoop root (List.replicate k false) root with
            | none => none
            | some ws => some (w :: ws))
        | RTree.eleaf =>
          (match decodeLoop root (List.replicate k false) root with
            | none => none
            | some ws => some (0 :: ws))
        | RTree.node la lb => decodeLoop root (List.replicate k false) (RTree.node la lb)) :=
      rfl
    rw [hred]
    cases l with
    | leaf w =>
      obtain ⟨ws, hws⟩ := ih root hroot
      refine ⟨w :: ws, ?_⟩
      show (match decodeLoop root (List.replicate k false) root with
        | none => none
        | some ws => some (w :: ws)) = some (w :: ws)
      rw [hws]
    | eleaf =>
      obtain ⟨ws, hws⟩ := ih root hroot
      refine ⟨0 :: ws, ?_⟩
      show (match decodeLoop root (List.replicate k false) root with
        | none => none
        | some ws => some (0 :: ws)) = some (0 :: ws)
      rw [hws]
    | node la lb =>
      obtain ⟨ws, hws⟩ := ih (RTree.node la lb) ⟨la, lb, rfl⟩
      exact ⟨ws, hws⟩

theorem decode_concat (entries : List (Nat × List Bool)) (t : RTree) :
    ∀ (x : List Nat) (rest : List Bool) (restD : List Nat),
      (∀ b, b ∈ x → ∃ c, codeOf entries b = some c ∧ c ≠ [] ∧
        subtreeAt t c = some (RTree.leaf b)) →
      (∃ l r, t = RTree.node l r) →
      decodeLoop t rest t = some restD →
      ∃ bits, convert_to_string_enc entries x = some bits ∧
        decodeLoop t (bits ++ rest) t = some (x ++ restD) := by
  intro x
  induction x with
  | nil =>
    intro rest restD _ _ hrest
    exact ⟨[], rfl, by simpa using hrest⟩
  | cons b x' ih =>
    intro rest restD hx hnode hrest
    obtain ⟨c, hc, hcne, hcsub⟩ := hx b (List.mem_cons_self b x')
    obtain ⟨bits', h1', h2'⟩ := ih rest restD
      (fun b0 hb0 => hx b0 (List.mem_cons_of_mem b hb0)) hnode hrest
    refine ⟨c ++ bits', ?_, ?_⟩
    · show (match codeOf entries b, convert_to_string_enc entries x' with
        | some c, some cs => some (c ++ cs)
        | _, _ => none) = some (c ++ bits')
      rw [hc, h1']
    · rw [List.append_assoc]
      rw [decode_code t b (bits' ++ rest) c t hcne hcsub hnode, h2']
      rfl

/-- **C3 (amended).** For every byte sequence `x` whose bytes all have codes
in a table of nonempty, pairwise non-prefix codes (any iteration order), the
full pipeline — concatenate codes, zero-pad to a multiple of 8, pack
MSB-first, unpack, walk the tree restored from the same table, truncate to
`|x|` — returns exactly `x`.  (The archiver's table for a single distinct
byte violates the nonempty-code hypothesis, and the counterexample shows the
roundtrip then fails.) -/
theorem C3_roundtrip_amended (entries : List (Nat × List Bool)) (x : List Nat)
    (hne : entries ≠ [])
    (hcodes : ∀ wc, wc ∈ entries → wc.2 ≠ [])
    (hpf : entries.Pairwise (fun a b => ¬ isCodePre a.2 b.2 ∧ ¬ isCodePre b.2 a.2))
    (hx : ∀ b, b ∈ x → (entries.find? (fun wc => wc.1 == b)).isSome = true) :
    ∃ t bytes, restore_from_word_code entries = some t ∧
      encode_bytes entries x = some bytes ∧
      decode_and_write t bytes x.length = some x := by
  obtain ⟨t, hrest, hroot, hleaves⟩ := restore_ok entries hne hcodes hpf
  have hx' : ∀ b, b ∈ x → ∃ c, codeOf entries b = some c ∧ c ≠ [] ∧
      subtreeAt t c = some (RTree.leaf b) := by
    intro b hb
    obtain ⟨wc, hfind⟩ := Option.isSome_iff_exists.mp (hx b hb)
    have hmem := List.mem_of_find?_eq_some hfind
    have hw : wc.1 = b := by
      have := List.find?_some hfind
      simpa using this
    refine ⟨wc.2, ?_, hcodes wc hmem, ?_⟩
    · unfold codeOf
      rw [hfind]
      rfl
    · have hlf := hleaves wc hmem
      rw [hw] at hlf
      exact hlf
  obtain ⟨bits, henc, _⟩ := decode_concat entries t x [] [] hx' hroot rfl
  obtain ⟨padD, hpadD⟩ := decode_pad t hroot ((8 - bits.length % 8) % 8) t hroot
  obtain ⟨bits2, henc2, hdec2⟩ := decode_concat entries t x
    (List.replicate ((8 - bits.length % 8) % 8) false) padD hx' hroot hpadD
  have hbb : bits2 = bits := (Option.some.inj (henc.symm.trans henc2)).symm
  rw [hbb] at hdec2
  refine ⟨t, packBytes (bits ++ List.replicate ((8 - bits.length % 8) % 8) false),
    hrest, ?_, ?_⟩
  · show (match convert_to_string_enc entries x with
      | none => none
      | some bits =>
        some (packBytes (bits ++ List.replicate ((8 - bits.length % 8) % 8) false))) = _
    rw [henc]
  · unfold decode_and_write decode_bytes
    have h8 : (bits ++ List.replicate ((8 - bits.length % 8) % 8) false).length =
        8 * ((bits.length + (8 - bits.length % 8) % 8) / 8) := by
      simp only [List.length_append, List.length_replicate]
      omega
    rw [unpack_pack _ _ h8, hdec2]
    show some (if x.length < (x ++ padD).length then (x ++ padD).take x.length
      else (x ++ padD)) = some x
    by_cases hlen : x.length < (x ++ padD).length
    · rw [if_pos hlen, List.take_left]
    · rw [if_neg hlen]
      have hpd : padD = [] := by
        rw [List.length_append] at hlen
        have : padD.length = 0 := by omega
        exact List.length_eq_zero.mp this
      rw [hpd, List.append_nil]

/-- Closed-form witness for `C3_roundtrip_amended`: the table
`{0 ↦ "0", 1 ↦ "1"}` and `x = [0, 1, 1]`. -/
theorem C3_roundtrip_amended_witness :
    ∃ t bytes, restore_from_word_code [(0, [false]), (1, [true])] = some t ∧
      encode_bytes [(0, [false]), (1, [true])] [0, 1, 1] = some bytes ∧
      decode_and_write t bytes [0, 1, 1].length = some [0, 1, 1] :=
  C3_roundtrip_amended [(0, [false]), (1, [true])] [0, 1, 1] (by decide) (by decide)
    (by
      refine List.Pairwise.cons (fun wc hwc => ?_) (List.Pairwise.cons (fun wc hwc => ?_)
        List.Pairwise.nil)
      · have h1 := List.mem_singleton.mp hwc
        rw [h1]
        exact ⟨fun ⟨d, hd⟩ => by simp at hd, fun ⟨d, hd⟩ => by simp at hd⟩
      · exact absurd hwc (List.not_mem_nil wc))
    (by decide)
